import Mathlib

/-
Verification of the skeletal-kinematics core in src/skinning/Scene.ts
(classes Bone and Mesh: forward-kinematics update passes, bone picking by
ray-cylinder intersection, and the derived per-bone instance buffers).

The vendored vector-math library (lib/TSM.js) is part of the repository but
is not under src/.  Its vector / quaternion / matrix operations are
modelled from the spec as the standard pure mathematical operations over
the real numbers: Vec3 is a 3-vector with the usual dot product, cross
product, componentwise scaling and Euclidean length, Quat is a quaternion
with the Hamilton product, rotation of a vector by a quaternion uses the
standard conjugation formula, and Mat4 is a real 4x4 matrix with matrix
multiplication, where the TSM constructor takes its sixteen entries in
column-major order.  Floating-point rounding is not modelled; numbers are
real numbers.

Object identity (JavaScript reference equality, used by the highlighted
bone machinery) is modelled by the bone's index in the skeleton's bone
array: the Mesh constructor creates one fresh Bone object per loader
record, so the index is a faithful identity.
-/

set_option maxHeartbeats 1600000

/-- Modelled from the spec: a TSM 3-component vector (lib/TSM.js Vec3),
with real components. -/
structure Vec3 where
  x : ℝ
  y : ℝ
  z : ℝ

namespace Vec3

/-- Modelled from the spec: TSM Vec3.difference(a, b) = a - b. -/
def sub (a b : Vec3) : Vec3 := ⟨a.x - b.x, a.y - b.y, a.z - b.z⟩

/-- Modelled from the spec: TSM Vec3.sum(a, b) = a + b. -/
def add (a b : Vec3) : Vec3 := ⟨a.x + b.x, a.y + b.y, a.z + b.z⟩

/-- Modelled from the spec: TSM Vec3.dot. -/
def dot (a b : Vec3) : ℝ := a.x * b.x + a.y * b.y + a.z * b.z

/-- Modelled from the spec: TSM Vec3.cross. -/
def cross (a b : Vec3) : Vec3 :=
  ⟨a.y * b.z - a.z * b.y, a.z * b.x - a.x * b.z, a.x * b.y - a.y * b.x⟩

/-- Modelled from the spec: TSM Vec3.scale (componentwise scaling). -/
def scale (v : Vec3) (s : ℝ) : Vec3 := ⟨v.x * s, v.y * s, v.z * s⟩

/-- Modelled from the spec: TSM Vec3.length (Euclidean length). -/
noncomputable def length (v : Vec3) : ℝ := Real.sqrt (dot v v)

/-- Modelled from the spec: TSM Vec3.normalize (divide each component by
the length). -/
noncomputable def normalize (v : Vec3) : Vec3 :=
  ⟨v.x / length v, v.y / length v, v.z / length v⟩

end Vec3

/-- Distance between two points, written the way Scene.ts computes it:
the length of the componentwise difference. -/
noncomputable def dist3 (a b : Vec3) : ℝ := (Vec3.sub a b).length

/-- Modelled from the spec: a TSM quaternion (lib/TSM.js Quat), with
components x, y, z and scalar part w. -/
structure Quat where
  x : ℝ
  y : ℝ
  z : ℝ
  w : ℝ

namespace Quat

/-- Modelled from the spec: TSM Quat.product(q1, q2), the Hamilton
quaternion product q1 * q2. -/
def product (q1 q2 : Quat) : Quat :=
  ⟨q1.w * q2.x + q1.x * q2.w + q1.y * q2.z - q1.z * q2.y,
   q1.w * q2.y + q1.y * q2.w + q1.z * q2.x - q1.x * q2.z,
   q1.w * q2.z + q1.z * q2.w + q1.x * q2.y - q1.y * q2.x,
   q1.w * q2.w - q1.x * q2.x - q1.y * q2.y - q1.z * q2.z⟩

/-- Modelled from the spec: TSM Quat.multiplyVec3, rotation of a vector by
a (unit) quaternion via the standard formula
v + w * (2 u x v) + u x (2 u x v) with u the vector part. -/
def multiplyVec3 (q : Quat) (v : Vec3) : Vec3 :=
  let u : Vec3 := ⟨q.x, q.y, q.z⟩
  let t : Vec3 := (Vec3.cross u v).scale 2
  Vec3.add (Vec3.add v (t.scale q.w)) (Vec3.cross u t)

end Quat

/-- Modelled from the spec: TSM Mat4, a real 4x4 matrix; Mat4.product is
matrix multiplication and multiplyVec4 is matrix-vector application. -/
abbrev Mat4 := Matrix (Fin 4) (Fin 4) ℝ

/-- The homogeneous origin (0, 0, 0, 1) that updatePositions applies the
chain transform to. -/
def origin4 : Fin 4 → ℝ := ![0, 0, 0, 1]

/-- The xyz components of a homogeneous 4-vector (TSM Vec4.xyz). -/
def vec3OfXyz (v : Fin 4 → ℝ) : Vec3 := ⟨v 0, v 1, v 2⟩

/-- Modelled from the spec: the TSM Mat4 built from the column-major value
list [1,0,0,0, 0,1,0,0, 0,0,1,0, c.x,c.y,c.z,1] used by setRelativePos,
i.e. the translation-only transform by c. -/
def transMat (c : Vec3) : Mat4 :=
  !![1, 0, 0, c.x; 0, 1, 0, c.y; 0, 0, 1, c.z; 0, 0, 0, 1]

/-- Modelled from the spec: TSM Quat.toMat4, the standard homogeneous
rotation matrix of a (unit) quaternion. -/
def Quat.toMat4 (q : Quat) : Mat4 :=
  !![1 - 2*(q.y*q.y + q.z*q.z), 2*(q.x*q.y - q.z*q.w), 2*(q.x*q.z + q.y*q.w), 0;
     2*(q.x*q.y + q.z*q.w), 1 - 2*(q.x*q.x + q.z*q.z), 2*(q.y*q.z - q.x*q.w), 0;
     2*(q.x*q.z - q.y*q.w), 2*(q.y*q.z + q.x*q.w), 1 - 2*(q.x*q.x + q.y*q.y), 0;
     0, 0, 0, 1]

/-- Bone.RAY_EPSILON (Scene.ts line 54). -/
noncomputable def RAY_EPSILON : ℝ := 1 / 10000

/-- Bone.CYL_RADIUS (Scene.ts line 55). -/
noncomputable def CYL_RADIUS : ℝ := 7 / 100

/-- A skeleton bone (Scene.ts class Bone).  The loader-only fields
`offset` and `initialTransformation` are carried verbatim from the loader
and never read by any operation the claims are about; they are omitted.
`position`, `endpoint`, `rotation` are the live pose fields, `localRot`
is the accumulated user rotation and `relativePos` the parent-relative
rest offset matrix set by Mesh.setRelativePos. -/
structure Bone where
  parent : Int
  children : List Nat
  position : Vec3
  endpoint : Vec3
  rotation : Quat
  initialPosition : Vec3
  initialEndpoint : Vec3
  localRot : Quat
  relativePos : Mat4

namespace Bone

/-- Bone.hasParent (Scene.ts lines 129-131). -/
def hasParent (b : Bone) : Prop := b.parent ≠ -1

instance (b : Bone) : Decidable b.hasParent := by unfold hasParent; infer_instance

/-- Bone.rotate (Scene.ts lines 125-127): compose the update onto the
accumulated local rotation; no other field is touched. -/
def rotate (b : Bone) (update : Quat) : Bone :=
  { b with localRot := Quat.product b.localRot update }

/-- Bone.intersect (Scene.ts lines 75-123), translated line by line. -/
noncomputable def intersect (b : Bone) (pos dir : Vec3) : ℝ :=
  let start := b.position
  let en := b.endpoint
  let boneDir := ((b.rotation.multiplyVec3 (Vec3.sub en start))).normalize
  let cr := Vec3.cross dir boneDir
  let ptDiff := Vec3.sub start pos
  let distance := |Vec3.dot ptDiff cr.normalize|
  if distance > CYL_RADIUS then -1
  else
    let q2 := Vec3.add start
      (boneDir.scale (Vec3.dot ptDiff (Vec3.cross dir cr) / Vec3.dot cr cr))
    let cylinderLength := (Vec3.sub en start).length
    if (Vec3.sub en q2).length > cylinderLength ∨
        (Vec3.sub start q2).length > cylinderLength then -1
    else
      let q1 := Vec3.add start
        (boneDir.scale (Vec3.dot ptDiff (Vec3.cross dir cr) / Vec3.dot cr cr))
      if (Vec3.sub q1 (Vec3.add pos (dir.scale RAY_EPSILON))).length >
          (Vec3.sub q1 pos).length then -1
      else |(Vec3.sub q1 pos).length|

end Bone

/-- C6: Bone.rotate composes the delta onto localRot by quaternion
multiplication (on the right) and changes nothing else: rotation (the
world rotation), position, endpoint and every other field are left
untouched until the owning skeleton recomputes. -/
theorem rotate_only_localRot (b : Bone) (u : Quat) :
    (b.rotate u).localRot = Quat.product b.localRot u ∧
    (b.rotate u).rotation = b.rotation ∧
    (b.rotate u).position = b.position ∧
    (b.rotate u).endpoint = b.endpoint ∧
    (b.rotate u).parent = b.parent ∧
    (b.rotate u).children = b.children ∧
    (b.rotate u).initialPosition = b.initialPosition ∧
    (b.rotate u).initialEndpoint = b.initialEndpoint ∧
    (b.rotate u).relativePos = b.relativePos :=
  ⟨rfl, rfl, rfl, rfl, rfl, rfl, rfl, rfl, rfl⟩

/-- C10: Bone.intersect returns either exactly the sentinel -1 or a
nonnegative number, so callers can distinguish no-hit unambiguously. -/
theorem intersect_sentinel_or_nonneg (b : Bone) (pos dir : Vec3) :
    b.intersect pos dir = -1 ∨ 0 ≤ b.intersect pos dir := by
  unfold Bone.intersect
  dsimp only
  split_ifs with h1 h2 h3
  · exact Or.inl rfl
  · exact Or.inl rfl
  · exact Or.inl rfl
  · exact Or.inr (abs_nonneg _)

/-! ## The skeleton (Mesh) state

The Mesh owns a flat array of bones; parent/child links are indices into
that array.  JavaScript object references into the array (this.roots, the
bone argument of rotateBone, this.highlightedBone) are modelled by the
referenced bone's index.  Mesh fields that no claim touches (geometry,
worldMatrix, materialName, the cached index/position buffers) are
omitted. -/

/-- The bone array of a Mesh. -/
abbrev Skel := List Bone

/-- Placeholder bone used only to give out-of-range reads a value. -/
def defaultBone : Bone :=
  { parent := -1, children := [], position := ⟨0, 0, 0⟩, endpoint := ⟨0, 0, 0⟩,
    rotation := ⟨0, 0, 0, 1⟩, initialPosition := ⟨0, 0, 0⟩,
    initialEndpoint := ⟨0, 0, 0⟩, localRot := ⟨0, 0, 0, 1⟩, relativePos := 1 }

/-- this.bones[i]. -/
def getB (m : Skel) (i : Nat) : Bone := m.getD i defaultBone

/-- Writing bone i in place (mutation of the object this.bones[i]). -/
def setB (m : Skel) (i : Nat) (b : Bone) : Skel := m.set i b

/-- Whether bone j of the skeleton has a parent (bones[j].hasParent()). -/
def hasP (m : Skel) (j : Nat) : Prop := (getB m j).parent ≠ -1

instance (m : Skel) (j : Nat) : Decidable (hasP m j) := by unfold hasP; infer_instance

/-- The parent index of bone j as a natural number. -/
def paN (m : Skel) (j : Nat) : Nat := (getB m j).parent.toNat

/-- The indices of the root bones in array order: the Mesh constructor
pushes each bone without a parent onto this.roots as it builds
this.bones (Scene.ts lines 158-164). -/
def rootIndices (m : Skel) : List Nat :=
  (List.range m.length).filter (fun i => decide ((getB m i).parent = -1))

/-- Mesh.updateRotationsRecursively (Scene.ts lines 413-418):
set bone.rotation = localRot * update, then recurse into the children,
passing the freshly written bone.rotation (re-read from the state, as the
source reads the field of the live object).  The fuel argument bounds the
recursion depth, which is finite on well-formed (acyclic) skeletons. -/
def updateRotationsRecursively : Nat → Skel → Nat → Quat → Skel
  | 0, m, _, _ => m
  | Nat.succ fuel, m, i, update =>
    let b := getB m i
    let m1 := setB m i { b with rotation := Quat.product b.localRot update }
    b.children.foldl
      (fun acc j => updateRotationsRecursively fuel acc j (getB acc i).rotation) m1

/-- Mesh.updateRotations (Scene.ts lines 421-428): for each root bone set
rotation = localRot, then recurse into its children. -/
def updateRotations (m : Skel) : Skel :=
  (rootIndices m).foldl
    (fun acc r =>
      let b := getB acc r
      let acc1 := setB acc r { b with rotation := b.localRot }
      b.children.foldl
        (fun acc2 j => updateRotationsRecursively m.length acc2 j (getB acc2 r).rotation)
        acc1)
    m

/-- Mesh.updatePositionsRecursively (Scene.ts lines 431-438):
thisUpdate = update * (relativePos * toMat4 localRot), position is
thisUpdate applied to the homogeneous origin, then recurse with
thisUpdate. -/
def updatePositionsRecursively : Nat → Skel → Nat → Mat4 → Skel
  | 0, m, _, _ => m
  | Nat.succ fuel, m, i, update =>
    let b := getB m i
    let thisUpdate := update * (b.relativePos * b.localRot.toMat4)
    let m1 := setB m i { b with position := vec3OfXyz (thisUpdate.mulVec origin4) }
    b.children.foldl (fun acc j => updatePositionsRecursively fuel acc j thisUpdate) m1

/-- Mesh.updatePositions (Scene.ts lines 441-449): for each root bone,
update = relativePos * toMat4 localRot, position = update applied to the
origin, then recurse into its children with update. -/
def updatePositions (m : Skel) : Skel :=
  (rootIndices m).foldl
    (fun acc r =>
      let b := getB acc r
      let update := b.relativePos * b.localRot.toMat4
      let acc1 := setB acc r { b with position := vec3OfXyz (update.mulVec origin4) }
      b.children.foldl
        (fun acc2 j => updatePositionsRecursively m.length acc2 j update) acc1)
    m

/-- Mesh.rotateBone (Scene.ts lines 405-410): bone.rotate(update), then
updateRotations, then updatePositions.  The bone argument is the index of
the bone object that was passed. -/
def rotateBone (m : Skel) (bIdx : Nat) (update : Quat) : Skel :=
  updatePositions (updateRotations (setB m bIdx ((getB m bIdx).rotate update)))

/-- Mesh.setRelativePos (Scene.ts lines 217-229): the new value of the
bone's relativePos field, the translation by (initialPosition - parent's
initialPosition), or by initialPosition for a root. -/
def setRelativePos (m : Skel) (j : Nat) : Bone :=
  let bone := getB m j
  let c : Vec3 :=
    if bone.parent ≠ -1 then
      Vec3.sub bone.initialPosition (getB m bone.parent.toNat).initialPosition
    else bone.initialPosition
  { bone with relativePos := transMat c }

/-- The parent-relative rest offset the spec ascribes to relativePos. -/
def relOffset (m : Skel) (j : Nat) : Mat4 :=
  transMat (if hasP m j then
      Vec3.sub (getB m j).initialPosition (getB m (paN m j)).initialPosition
    else (getB m j).initialPosition)

/-- Well-formedness of a skeleton with respect to a depth function d:
children indices are in range and point back to their parent, every
non-root appears among its parent's children, d is 0 exactly at the roots,
grows by 1 along every child edge, and is bounded by the bone count.
This is the loader contract the spec assumes (indices in range, no
cycles). -/
structure WFData (m : Skel) (d : Nat → Nat) : Prop where
  hA : ∀ i, i < m.length → ∀ j ∈ (getB m i).children,
    j < m.length ∧ (getB m j).parent = Int.ofNat i ∧ d j = d i + 1
  hB : ∀ j, j < m.length → hasP m j → paN m j < m.length ∧ j ∈ (getB m (paN m j)).children
  hC : ∀ j, j < m.length → (¬ hasP m j ↔ d j = 0)
  hD : ∀ j, j < m.length → d j < m.length

/-- Well-formedness of a skeleton: some depth function witnesses the
forest structure. -/
def WF (m : Skel) : Prop := ∃ d : Nat → Nat, WFData m d

/-- Reachability from bone i to bone k along child edges of skeleton m. -/
inductive ReachB (m : Skel) : Nat → Nat → Prop
  | refl (i : Nat) : ReachB m i i
  | step {i j k : Nat} : j ∈ (getB m i).children → ReachB m j k → ReachB m i k

/-- Depth of a bone, recomputed by chasing parent pointers with fuel. -/
def depthOf (m : Skel) : Nat → Nat → Nat
  | 0, _ => 0
  | Nat.succ f, j => if hasP m j then depthOf m f (paN m j) + 1 else 0

/-- The forward-kinematics chain transform of bone j as the spec
describes it: the composition of relativeOffset and rotationMatrix links
from j's root ancestor down to j (with fuel bounding the parent-chain
length). -/
def chainGo (m : Skel) : Nat → Nat → Mat4
  | 0, j => (getB m j).relativePos * (getB m j).localRot.toMat4
  | Nat.succ f, j =>
    if hasP m j then
      chainGo m f (paN m j) * ((getB m j).relativePos * (getB m j).localRot.toMat4)
    else (getB m j).relativePos * (getB m j).localRot.toMat4

/-- The chain transform of bone j (fuel instantiated to the depth). -/
def chainT (m : Skel) (j : Nat) : Mat4 := chainGo m (depthOf m m.length j) j

/-! ## Basic state lemmas -/

theorem length_setB (m : Skel) (i : Nat) (b : Bone) : (setB m i b).length = m.length :=
  List.length_set m i b

theorem getB_setB_self {m : Skel} {i : Nat} (b : Bone) (h : i < m.length) :
    getB (setB m i b) i = b := by
  unfold getB setB
  rw [List.getD_eq_getElem _ _ (by simpa using h), List.getElem_set_self]

theorem getB_setB_ne {m : Skel} {i k : Nat} (b : Bone) (h : i ≠ k) :
    getB (setB m i b) k = getB m k := by
  unfold getB setB
  rcases Nat.lt_or_ge k m.length with hk | hk
  · rw [List.getD_eq_getElem _ _ (by simpa using hk), List.getD_eq_getElem _ _ hk,
      List.getElem_set_ne h]
  · rw [List.getD_eq_default _ _ (by simpa using hk), List.getD_eq_default _ _ hk]

theorem getB_setB_oob {m : Skel} {i : Nat} (b : Bone) (h : m.length ≤ i) :
    setB m i b = m := by
  unfold setB
  exact List.set_eq_of_length_le h

/-- The states reached while updateRotations runs differ from the initial
state only in the rotation fields. -/
def onlyRotDiff (m0 m : Skel) : Prop :=
  m.length = m0.length ∧
  ∀ j, getB m j = { getB m0 j with rotation := (getB m j).rotation }

theorem onlyRotDiff_refl (m0 : Skel) : onlyRotDiff m0 m0 := ⟨rfl, fun _ => rfl⟩

theorem onlyRotDiff_set {m0 m : Skel} (h : onlyRotDiff m0 m) (i : Nat) (r : Quat) :
    onlyRotDiff m0 (setB m i { getB m i with rotation := r }) := by
  rcases Nat.lt_or_ge i m.length with hi | hi
  · refine ⟨(length_setB m i _).trans h.1, fun j => ?_⟩
    rcases eq_or_ne i j with rfl | hne
    · rw [getB_setB_self _ hi]
      rw [h.2 i]
    · rw [getB_setB_ne _ hne]
      exact h.2 j
  · rw [getB_setB_oob _ hi]
    exact h

theorem onlyRotDiff_children {m0 m : Skel} (h : onlyRotDiff m0 m) (j : Nat) :
    (getB m j).children = (getB m0 j).children := by rw [h.2 j]

theorem onlyRotDiff_localRot {m0 m : Skel} (h : onlyRotDiff m0 m) (j : Nat) :
    (getB m j).localRot = (getB m0 j).localRot := by rw [h.2 j]

theorem onlyRotDiff_parent {m0 m : Skel} (h : onlyRotDiff m0 m) (j : Nat) :
    (getB m j).parent = (getB m0 j).parent := by rw [h.2 j]

/-- The states reached while updatePositions runs differ from the initial
state only in the position fields. -/
def onlyPosDiff (m0 m : Skel) : Prop :=
  m.length = m0.length ∧
  ∀ j, getB m j = { getB m0 j with position := (getB m j).position }

theorem onlyPosDiff_refl (m0 : Skel) : onlyPosDiff m0 m0 := ⟨rfl, fun _ => rfl⟩

theorem onlyPosDiff_set {m0 m : Skel} (h : onlyPosDiff m0 m) (i : Nat) (p : Vec3) :
    onlyPosDiff m0 (setB m i { getB m i with position := p }) := by
  rcases Nat.lt_or_ge i m.length with hi | hi
  · refine ⟨(length_setB m i _).trans h.1, fun j => ?_⟩
    rcases eq_or_ne i j with rfl | hne
    · rw [getB_setB_self _ hi]
      rw [h.2 i]
    · rw [getB_setB_ne _ hne]
      exact h.2 j
  · rw [getB_setB_oob _ hi]
    exact h

theorem onlyPosDiff_children {m0 m : Skel} (h : onlyPosDiff m0 m) (j : Nat) :
    (getB m j).children = (getB m0 j).children := by rw [h.2 j]

theorem onlyPosDiff_localRot {m0 m : Skel} (h : onlyPosDiff m0 m) (j : Nat) :
    (getB m j).localRot = (getB m0 j).localRot := by rw [h.2 j]

theorem onlyPosDiff_parent {m0 m : Skel} (h : onlyPosDiff m0 m) (j : Nat) :
    (getB m j).parent = (getB m0 j).parent := by rw [h.2 j]

theorem onlyPosDiff_relativePos {m0 m : Skel} (h : onlyPosDiff m0 m) (j : Nat) :
    (getB m j).relativePos = (getB m0 j).relativePos := by rw [h.2 j]

/-! ## Reachability lemmas -/

theorem ReachB.trans {m : Skel} {a b c : Nat} (h1 : ReachB m a b) (h2 : ReachB m b c) :
    ReachB m a c := by
  induction h1 with
  | refl => exact h2
  | step hj _ ih => exact ReachB.step hj (ih h2)

theorem ReachB.snoc {m : Skel} {a x j : Nat} (h : ReachB m a x)
    (hj : j ∈ (getB m x).children) : ReachB m a j :=
  h.trans (ReachB.step hj (ReachB.refl j))

theorem reach_bound {m0 : Skel} {d : Nat → Nat} (hw : WFData m0 d)
    {i k : Nat} (h : ReachB m0 i k) (hi : i < m0.length) :
    k < m0.length ∧ d i ≤ d k := by
  induction h with
  | refl i => exact ⟨hi, le_rfl⟩
  | step hj hr ih =>
    rename_i a b c
    obtain ⟨hbn, _, hdb⟩ := hw.hA a hi b hj
    obtain ⟨hkn, hdk⟩ := ih hbn
    exact ⟨hkn, by omega⟩

theorem reach_d_eq {m0 : Skel} {d : Nat → Nat} (hw : WFData m0 d)
    {i k : Nat} (h : ReachB m0 i k) (hi : i < m0.length) (hd : d i = d k) : i = k := by
  cases h with
  | refl => rfl
  | step hj hr =>
    rename_i b
    obtain ⟨hbn, _, hdb⟩ := hw.hA i hi b hj
    obtain ⟨_, hdk⟩ := reach_bound hw hr hbn
    omega

theorem child_not_reach {m0 : Skel} {d : Nat → Nat} (hw : WFData m0 d)
    {i j : Nat} (hi : i < m0.length) (hj : j ∈ (getB m0 i).children) :
    ¬ ReachB m0 j i := by
  intro h
  obtain ⟨hjn, _, hdj⟩ := hw.hA i hi j hj
  obtain ⟨_, hdk⟩ := reach_bound hw h hjn
  omega

theorem reach_last_edge {m0 : Skel} {d : Nat → Nat} (hw : WFData m0 d) :
    ∀ {a k : Nat}, ReachB m0 a k → a < m0.length → a ≠ k →
      hasP m0 k ∧ paN m0 k < m0.length ∧ k ∈ (getB m0 (paN m0 k)).children ∧
        ReachB m0 a (paN m0 k) := by
  intro a k h
  induction h with
  | refl i => intro _ hne; exact absurd rfl hne
  | step hj hr ih =>
    rename_i i j k
    intro hi _
    obtain ⟨hjn, hpj, _⟩ := hw.hA i hi j hj
    by_cases hjk : j = k
    · subst hjk
      have hpa : paN m0 j = i := by unfold paN; rw [hpj]; simp
      refine ⟨?_, ?_, ?_, ?_⟩
      · unfold hasP; rw [hpj]; intro hc; simp only [Int.ofNat_eq_coe] at hc; omega
      · rw [hpa]; exact hi
      · rw [hpa]; exact hj
      · rw [hpa]; exact ReachB.refl i
    · obtain ⟨h1, h2, h3, h4⟩ := ih hjn hjk
      exact ⟨h1, h2, h3, ReachB.step hj h4⟩

theorem mem_rootIndices {m0 : Skel} {j : Nat} :
    j ∈ rootIndices m0 ↔ j < m0.length ∧ (getB m0 j).parent = -1 := by
  unfold rootIndices
  simp [List.mem_filter]

theorem rootReach {m0 : Skel} {d : Nat → Nat} (hw : WFData m0 d) :
    ∀ t j, j < m0.length → d j ≤ t → ∃ r, r ∈ rootIndices m0 ∧ ReachB m0 r j := by
  intro t
  induction t with
  | zero =>
    intro j hj hd
    have hroot : ¬ hasP m0 j := (hw.hC j hj).mpr (Nat.le_zero.mp hd)
    refine ⟨j, mem_rootIndices.mpr ⟨hj, not_not.mp hroot⟩, ReachB.refl j⟩
  | succ t ih =>
    intro j hj hd
    by_cases hp : hasP m0 j
    · obtain ⟨hpn, hmem⟩ := hw.hB j hj hp
      obtain ⟨_, _, hdj⟩ := hw.hA (paN m0 j) hpn j hmem
      obtain ⟨r, hr, hreach⟩ := ih (paN m0 j) hpn (by omega)
      exact ⟨r, hr, hreach.snoc hmem⟩
    · refine ⟨j, mem_rootIndices.mpr ⟨hj, not_not.mp hp⟩, ReachB.refl j⟩

/-! ## Correctness of updateRotations -/

/-- The relation updateRotations establishes at a non-root bone k: its
world rotation is its local delta composed on top of its parent's world
rotation (parent read in the same, final, state). -/
def RotRel (m0 m : Skel) (k : Nat) : Prop :=
  (getB m k).rotation =
    Quat.product (getB m0 k).localRot ((getB m (paN m0 k)).rotation)

/-- Specification of updateRotationsRecursively at a given fuel:
only rotations change, bones outside the processed subtree are untouched,
the subtree root's rotation becomes localRot * update, and every strict
descendant satisfies RotRel. -/
def RotRecSpec (m0 : Skel) (d : Nat → Nat) (fuel : Nat) : Prop :=
  ∀ i u m, onlyRotDiff m0 m → i < m0.length → m0.length ≤ fuel + d i →
    onlyRotDiff m0 (updateRotationsRecursively fuel m i u) ∧
    (∀ k, ¬ ReachB m0 i k → getB (updateRotationsRecursively fuel m i u) k = getB m k) ∧
    (getB (updateRotationsRecursively fuel m i u) i).rotation =
      Quat.product (getB m0 i).localRot u ∧
    (∀ k, ReachB m0 i k → k ≠ i → RotRel m0 (updateRotationsRecursively fuel m i u) k)

theorem updRotRec_succ (F : Nat) (m : Skel) (i : Nat) (u : Quat) :
    updateRotationsRecursively (F + 1) m i u =
      ((getB m i).children).foldl
        (fun acc j => updateRotationsRecursively F acc j (getB acc i).rotation)
        (setB m i { getB m i with rotation := Quat.product (getB m i).localRot u }) := rfl

theorem updRotFold {m0 : Skel} {d : Nat → Nat} (hw : WFData m0 d) (F : Nat)
    (hmain : RotRecSpec m0 d F) (i : Nat) (hi : i < m0.length)
    (hfuel : m0.length ≤ F + d i + 1) (w : Quat) :
    ∀ cs : List Nat, (∀ c ∈ cs, c ∈ (getB m0 i).children) →
    ∀ m, onlyRotDiff m0 m → (getB m i).rotation = w →
      onlyRotDiff m0 (cs.foldl
        (fun acc j => updateRotationsRecursively F acc j (getB acc i).rotation) m) ∧
      (∀ k, (∀ c ∈ cs, ¬ ReachB m0 c k) →
        getB (cs.foldl
          (fun acc j => updateRotationsRecursively F acc j (getB acc i).rotation) m) k =
          getB m k) ∧
      (getB (cs.foldl
        (fun acc j => updateRotationsRecursively F acc j (getB acc i).rotation) m)
          i).rotation = w ∧
      (∀ c ∈ cs, ∀ k, ReachB m0 c k → RotRel m0
        (cs.foldl
          (fun acc j => updateRotationsRecursively F acc j (getB acc i).rotation) m) k) := by
  intro cs
  induction cs with
  | nil =>
    intro _ m hm hrotw
    exact ⟨hm, fun k _ => rfl, hrotw, by simp⟩
  | cons c cs ih =>
    intro hcs m hm hrotw
    have hc : c ∈ (getB m0 i).children := hcs c (List.mem_cons_self c cs)
    obtain ⟨hcn, hpc, hdc⟩ := hw.hA i hi c hc
    rw [List.foldl_cons]
    obtain ⟨h1, h2, h3, h4⟩ :=
      hmain c ((getB m i).rotation) m hm hcn (by omega)
    have hnotri : ¬ ReachB m0 c i := child_not_reach hw hi hc
    have hroti :
        (getB (updateRotationsRecursively F m c ((getB m i).rotation)) i).rotation = w := by
      rw [h2 i hnotri, hrotw]
    have hrotc :
        (getB (updateRotationsRecursively F m c ((getB m i).rotation)) c).rotation =
          Quat.product (getB m0 c).localRot w := by rw [h3, hrotw]
    have hpac : paN m0 c = i := by unfold paN; rw [hpc]; simp
    obtain ⟨H1, H2, H3, H4⟩ :=
      ih (fun c' hc' => hcs c' (List.mem_cons_of_mem c hc'))
        (updateRotationsRecursively F m c ((getB m i).rotation)) h1 hroti
    refine ⟨H1, ?_, H3, ?_⟩
    · intro k hk
      rw [H2 k (fun c' hc' => hk c' (List.mem_cons_of_mem c hc')),
        h2 k (hk c (List.mem_cons_self c cs))]
    · intro c' hc' k hreach
      rcases List.mem_cons.mp hc' with rfl | hmem
      · by_cases hex : ∃ c'' ∈ cs, ReachB m0 c'' k
        · obtain ⟨c'', hc'', hr''⟩ := hex
          exact H4 c'' hc'' k hr''
        · push_neg at hex
          have hchild : k ∈ (getB m0 (paN m0 k)).children := by
            by_cases hkc : k = c'
            · subst hkc; rw [hpac]; exact hc
            · exact (reach_last_edge hw hreach hcn (fun h => hkc h.symm)).2.2.1
          have hkun :
              getB (cs.foldl
                (fun acc j => updateRotationsRecursively F acc j (getB acc i).rotation)
                (updateRotationsRecursively F m c' ((getB m i).rotation))) k =
                getB (updateRotationsRecursively F m c' ((getB m i).rotation)) k :=
            H2 k hex
          have hpun :
              getB (cs.foldl
                (fun acc j => updateRotationsRecursively F acc j (getB acc i).rotation)
                (updateRotationsRecursively F m c' ((getB m i).rotation))) (paN m0 k) =
                getB (updateRotationsRecursively F m c' ((getB m i).rotation)) (paN m0 k) :=
            H2 (paN m0 k) (fun c'' hc'' hr'' => hex c'' hc'' (hr''.snoc hchild))
          unfold RotRel
          rw [hkun, hpun]
          by_cases hkc : k = c'
          · subst hkc
            rw [hrotc, hpac, hroti]
          · exact h4 k hreach hkc
      · exact H4 c' hmem k hreach

theorem updRotRec_main {m0 : Skel} {d : Nat → Nat} (hw : WFData m0 d) :
    ∀ fuel, RotRecSpec m0 d fuel := by
  intro fuel
  induction fuel with
  | zero =>
    intro i u m hm hi hfuel
    exact absurd (hw.hD i hi) (by omega)
  | succ F ih =>
    intro i u m hm hi hfuel
    rw [updRotRec_succ]
    have hch : (getB m i).children = (getB m0 i).children := onlyRotDiff_children hm i
    have hlr : (getB m i).localRot = (getB m0 i).localRot := onlyRotDiff_localRot hm i
    rw [hch, hlr]
    have hm1 : onlyRotDiff m0
        (setB m i { getB m i with rotation := Quat.product (getB m0 i).localRot u }) :=
      onlyRotDiff_set hm i _
    have hrot1 : (getB (setB m i
        { getB m i with rotation := Quat.product (getB m0 i).localRot u }) i).rotation =
        Quat.product (getB m0 i).localRot u := by
      rw [getB_setB_self _ (by rw [hm.1]; exact hi)]
    obtain ⟨A1, A2, A3, A4⟩ :=
      updRotFold hw F ih i hi (by omega) (Quat.product (getB m0 i).localRot u)
        ((getB m0 i).children) (fun c hc => hc) _ hm1 hrot1
    refine ⟨A1, ?_, A3, ?_⟩
    · intro k hk
      have hki : i ≠ k := fun h => hk (h ▸ ReachB.refl i)
      rw [A2 k (fun c hc hr => hk (ReachB.step hc hr)), getB_setB_ne _ hki]
    · intro k hreach hki
      cases hreach with
      | refl => exact absurd rfl hki
      | step hcmem hr =>
        rename_i c
        exact A4 c hcmem k hr

theorem updateRotations_def (m : Skel) :
    updateRotations m = (rootIndices m).foldl
      (fun acc r => ((getB acc r).children).foldl
        (fun acc2 j => updateRotationsRecursively m.length acc2 j (getB acc2 r).rotation)
        (setB acc r { getB acc r with rotation := (getB acc r).localRot })) m := rfl

theorem updRotRootsFold {m0 : Skel} {d : Nat → Nat} (hw : WFData m0 d) :
    ∀ rs : List Nat, (∀ r ∈ rs, r ∈ rootIndices m0) →
    ∀ m, onlyRotDiff m0 m →
      onlyRotDiff m0 (rs.foldl
        (fun acc r => ((getB acc r).children).foldl
          (fun acc2 j => updateRotationsRecursively m0.length acc2 j (getB acc2 r).rotation)
          (setB acc r { getB acc r with rotation := (getB acc r).localRot })) m) ∧
      (∀ k, (∀ r ∈ rs, ¬ ReachB m0 r k) →
        getB (rs.foldl
          (fun acc r => ((getB acc r).children).foldl
            (fun acc2 j => updateRotationsRecursively m0.length acc2 j (getB acc2 r).rotation)
            (setB acc r { getB acc r with rotation := (getB acc r).localRot })) m) k =
          getB m k) ∧
      (∀ r ∈ rs,
        (getB (rs.foldl
          (fun acc r => ((getB acc r).children).foldl
            (fun acc2 j => updateRotationsRecursively m0.length acc2 j (getB acc2 r).rotation)
            (setB acc r { getB acc r with rotation := (getB acc r).localRot })) m)
            r).rotation = (getB m0 r).localRot) ∧
      (∀ r ∈ rs, ∀ k, ReachB m0 r k → k ≠ r → RotRel m0
        (rs.foldl
          (fun acc r => ((getB acc r).children).foldl
            (fun acc2 j => updateRotationsRecursively m0.length acc2 j (getB acc2 r).rotation)
            (setB acc r { getB acc r with rotation := (getB acc r).localRot })) m) k) := by
  intro rs
  induction rs with
  | nil =>
    intro _ m hm
    exact ⟨hm, fun k _ => rfl, by simp, by simp⟩
  | cons r rs ih =>
    intro hrs m hm
    have hr : r ∈ rootIndices m0 := hrs r (List.mem_cons_self r rs)
    obtain ⟨hrn, hrpar⟩ := mem_rootIndices.mp hr
    have hrd : d r = 0 := (hw.hC r hrn).mp (by unfold hasP; rw [hrpar]; simp)
    rw [List.foldl_cons]
    have hch : (getB m r).children = (getB m0 r).children := onlyRotDiff_children hm r
    have hlr : (getB m r).localRot = (getB m0 r).localRot := onlyRotDiff_localRot hm r
    rw [hch, hlr]
    have hm1 : onlyRotDiff m0
        (setB m r { getB m r with rotation := (getB m0 r).localRot }) :=
      onlyRotDiff_set hm r _
    have hrot1 : (getB (setB m r
        { getB m r with rotation := (getB m0 r).localRot }) r).rotation =
        (getB m0 r).localRot := by
      rw [getB_setB_self _ (by rw [hm.1]; exact hrn)]
    obtain ⟨B1, B2, B3, B4⟩ :=
      updRotFold hw m0.length (updRotRec_main hw m0.length) r hrn (by omega)
        ((getB m0 r).localRot) ((getB m0 r).children) (fun c hc => hc) _ hm1 hrot1
    obtain ⟨C1, C2, C3, C4⟩ :=
      ih (fun r' hr' => hrs r' (List.mem_cons_of_mem r hr')) _ B1
    refine ⟨C1, ?_, ?_, ?_⟩
    · intro k hk
      have hkr : ¬ ReachB m0 r k := hk r (List.mem_cons_self r rs)
      have hkrne : r ≠ k := fun h => hkr (h ▸ ReachB.refl r)
      rw [C2 k (fun r' hr' => hk r' (List.mem_cons_of_mem r hr')),
        B2 k (fun c hc hrc => hkr (ReachB.step hc hrc)), getB_setB_ne _ hkrne]
    · intro r' hr'
      rcases List.mem_cons.mp hr' with rfl | hmem
      · by_cases hex : ∃ r'' ∈ rs, ReachB m0 r'' r'
        · obtain ⟨r'', hr'', hrr⟩ := hex
          have hr''root : r'' ∈ rootIndices m0 := hrs r'' (List.mem_cons_of_mem _ hr'')
          obtain ⟨hr''n, hr''par⟩ := mem_rootIndices.mp hr''root
          have hr''d : d r'' = 0 := (hw.hC r'' hr''n).mp (by unfold hasP; rw [hr''par]; simp)
          have : r'' = r' := reach_d_eq hw hrr hr''n (by omega)
          subst this
          exact C3 r'' hr''
        · push_neg at hex
          rw [C2 r' hex]
          exact B3
      · exact C3 r' hmem
    · intro r' hr' k hreach hkr
      rcases List.mem_cons.mp hr' with rfl | hmem
      · by_cases hex : ∃ r'' ∈ rs, ReachB m0 r'' k
        · obtain ⟨r'', hr'', hrk⟩ := hex
          have hkne : k ≠ r'' := by
            intro h
            have hr''root : r'' ∈ rootIndices m0 := hrs r'' (List.mem_cons_of_mem _ hr'')
            obtain ⟨hr''n, hr''par⟩ := mem_rootIndices.mp hr''root
            have hr''d : d r'' = 0 :=
              (hw.hC r'' hr''n).mp (by unfold hasP; rw [hr''par]; simp)
            have hdk : d k = 0 := by rw [h]; exact hr''d
            exact hkr (reach_d_eq hw hreach hrn (by omega)).symm
          exact C4 r'' hr'' k hrk hkne
        · push_neg at hex
          have hlast := reach_last_edge hw hreach hrn (fun h => hkr h.symm)
          have hchild : k ∈ (getB m0 (paN m0 k)).children := hlast.2.2.1
          have hkun := C2 k hex
          have hpun := C2 (paN m0 k) (fun r'' hr'' hrp => hex r'' hr'' (hrp.snoc hchild))
          unfold RotRel
          rw [hkun, hpun]
          cases hreach with
          | refl => exact absurd rfl hkr
          | step hcmem hrc =>
            rename_i c
            exact B4 c hcmem k hrc
      · exact C4 r' hmem k hreach hkr

/-- C1: on every well-formed skeleton, updateRotations sets each root
bone's world rotation to its local rotation, and — the walk being a full
depth-first pass from the roots with no early exit — sets every non-root
bone's world rotation to the composition
product(child.localRot, parent world rotation), the bone's own local
delta applied on top of the already-computed parent world rotation. -/
theorem updateRotations_spec (m : Skel) (hWF : WF m) :
    (∀ r, r < m.length → ¬ hasP m r →
      (getB (updateRotations m) r).rotation = (getB m r).localRot) ∧
    (∀ j, j < m.length → hasP m j →
      (getB (updateRotations m) j).rotation =
        Quat.product (getB m j).localRot
          ((getB (updateRotations m) (paN m j)).rotation)) := by
  obtain ⟨d, hw⟩ := hWF
  rw [updateRotations_def]
  obtain ⟨D1, D2, D3, D4⟩ :=
    updRotRootsFold hw (rootIndices m) (fun r hr => hr) m (onlyRotDiff_refl m)
  constructor
  · intro r hr hp
    exact D3 r (mem_rootIndices.mpr ⟨hr, not_not.mp hp⟩)
  · intro j hj hp
    obtain ⟨r, hrmem, hreach⟩ := rootReach hw (d j) j hj le_rfl
    have hjr : j ≠ r := fun h =>
      hp (show (getB m j).parent = -1 by rw [h]; exact (mem_rootIndices.mp hrmem).2)
    exact D4 r hrmem j hreach hjr

/-- A concrete two-bone chain (root bone 0 with child bone 1) used as a
witness skeleton. -/
def wBone0 : Bone :=
  { parent := -1, children := [1], position := ⟨0, 0, 0⟩, endpoint := ⟨0, 0, 1⟩,
    rotation := ⟨0, 0, 0, 1⟩, initialPosition := ⟨0, 0, 0⟩,
    initialEndpoint := ⟨0, 0, 1⟩, localRot := ⟨0, 0, 0, 1⟩,
    relativePos := transMat ⟨0, 0, 0⟩ }

/-- Child bone of the witness skeleton. -/
def wBone1 : Bone :=
  { parent := 0, children := [], position := ⟨0, 0, 1⟩, endpoint := ⟨0, 0, 2⟩,
    rotation := ⟨0, 0, 0, 1⟩, initialPosition := ⟨0, 0, 1⟩,
    initialEndpoint := ⟨0, 0, 2⟩, localRot := ⟨0, 0, 0, 1⟩,
    relativePos := transMat ⟨0, 0, 1⟩ }

/-- The witness skeleton: a two-bone chain. -/
def wSkel : Skel := [wBone0, wBone1]

/-- The witness skeleton is well-formed. -/
theorem wSkel_WF : WF wSkel :=
  ⟨fun j => if j = 0 then 0 else 1, by decide, by decide, by decide, by decide⟩

/-- Witness for C1: the hypotheses of updateRotations_spec hold for the
concrete two-bone chain, and the conclusion follows by applying it. -/
theorem updateRotations_spec_witness :
    WF wSkel ∧
    ((∀ r, r < wSkel.length → ¬ hasP wSkel r →
      (getB (updateRotations wSkel) r).rotation = (getB wSkel r).localRot) ∧
     (∀ j, j < wSkel.length → hasP wSkel j →
      (getB (updateRotations wSkel) j).rotation =
        Quat.product (getB wSkel j).localRot
          ((getB (updateRotations wSkel) (paN wSkel j)).rotation))) :=
  ⟨wSkel_WF, updateRotations_spec wSkel wSkel_WF⟩

/-! ## Correctness of updatePositions -/

theorem hasP_congr {m0 m : Skel} (h : onlyPosDiff m0 m) (j : Nat) :
    hasP m j ↔ hasP m0 j := by unfold hasP; rw [onlyPosDiff_parent h j]

theorem paN_congr {m0 m : Skel} (h : onlyPosDiff m0 m) (j : Nat) :
    paN m j = paN m0 j := by unfold paN; rw [onlyPosDiff_parent h j]

theorem depthOf_congr {m0 m : Skel} (h : onlyPosDiff m0 m) :
    ∀ f j, depthOf m f j = depthOf m0 f j := by
  intro f
  induction f with
  | zero => intro j; rfl
  | succ f ih =>
    intro j
    unfold depthOf
    by_cases hp : hasP m0 j
    · rw [if_pos ((hasP_congr h j).mpr hp), if_pos hp, paN_congr h, ih]
    · rw [if_neg (fun hc => hp ((hasP_congr h j).mp hc)), if_neg hp]

theorem chainGo_congr {m0 m : Skel} (h : onlyPosDiff m0 m) :
    ∀ f j, chainGo m f j = chainGo m0 f j := by
  intro f
  induction f with
  | zero =>
    intro j
    unfold chainGo
    rw [onlyPosDiff_relativePos h j, onlyPosDiff_localRot h j]
  | succ f ih =>
    intro j
    unfold chainGo
    by_cases hp : hasP m0 j
    · rw [if_pos ((hasP_congr h j).mpr hp), if_pos hp, paN_congr h, ih,
        onlyPosDiff_relativePos h j, onlyPosDiff_localRot h j]
    · rw [if_neg (fun hc => hp ((hasP_congr h j).mp hc)), if_neg hp,
        onlyPosDiff_relativePos h j, onlyPosDiff_localRot h j]

theorem chainT_congr {m0 m : Skel} (h : onlyPosDiff m0 m) (j : Nat) :
    chainT m j = chainT m0 j := by
  unfold chainT
  rw [h.1, depthOf_congr h, chainGo_congr h]

theorem depthOf_eq_d {m0 : Skel} {d : Nat → Nat} (hw : WFData m0 d) :
    ∀ f j, j < m0.length → d j ≤ f → depthOf m0 f j = d j := by
  intro f
  induction f with
  | zero =>
    intro j _ hd
    simp only [depthOf]
    omega
  | succ f ih =>
    intro j hj hd
    by_cases hp : hasP m0 j
    · obtain ⟨hpn, hmem⟩ := hw.hB j hj hp
      obtain ⟨_, _, hdj⟩ := hw.hA (paN m0 j) hpn j hmem
      unfold depthOf
      rw [if_pos hp, ih (paN m0 j) hpn (by omega)]
      omega
    · unfold depthOf
      rw [if_neg hp]
      exact ((hw.hC j hj).mp hp).symm

theorem chainGo_stable {m0 : Skel} {d : Nat → Nat} (hw : WFData m0 d) :
    ∀ f j, j < m0.length → d j ≤ f → chainGo m0 f j = chainGo m0 (d j) j := by
  intro f
  induction f with
  | zero =>
    intro j _ hd
    have : d j = 0 := by omega
    rw [this]
  | succ f ih =>
    intro j hj hd
    by_cases hp : hasP m0 j
    · obtain ⟨hpn, hmem⟩ := hw.hB j hj hp
      obtain ⟨_, _, hdj⟩ := hw.hA (paN m0 j) hpn j hmem
      rw [hdj]
      show chainGo m0 (f + 1) j = chainGo m0 (d (paN m0 j) + 1) j
      unfold chainGo
      rw [if_pos hp, if_pos hp, ih (paN m0 j) hpn (by omega)]
    · have hd0 : d j = 0 := (hw.hC j hj).mp hp
      rw [hd0]
      unfold chainGo
      rw [if_neg hp]

theorem chainT_eq_chainGo_d {m0 : Skel} {d : Nat → Nat} (hw : WFData m0 d)
    {j : Nat} (hj : j < m0.length) : chainT m0 j = chainGo m0 (d j) j := by
  unfold chainT
  rw [depthOf_eq_d hw m0.length j hj (le_of_lt (hw.hD j hj))]

theorem chainT_root {m0 : Skel} {d : Nat → Nat} (hw : WFData m0 d)
    {r : Nat} (hr : r < m0.length) (hp : ¬ hasP m0 r) :
    chainT m0 r = (getB m0 r).relativePos * (getB m0 r).localRot.toMat4 := by
  rw [chainT_eq_chainGo_d hw hr, (hw.hC r hr).mp hp]
  rfl

theorem chainGo_succ_eq (m : Skel) (f j : Nat) :
    chainGo m (f + 1) j =
      if hasP m j then
        chainGo m f (paN m j) * ((getB m j).relativePos * (getB m j).localRot.toMat4)
      else (getB m j).relativePos * (getB m j).localRot.toMat4 := rfl

theorem chainT_child {m0 : Skel} {d : Nat → Nat} (hw : WFData m0 d)
    {j : Nat} (hj : j < m0.length) (hp : hasP m0 j) :
    chainT m0 j = chainT m0 (paN m0 j) *
      ((getB m0 j).relativePos * (getB m0 j).localRot.toMat4) := by
  obtain ⟨hpn, hmem⟩ := hw.hB j hj hp
  obtain ⟨_, _, hdj⟩ := hw.hA (paN m0 j) hpn j hmem
  rw [chainT_eq_chainGo_d hw hj, chainT_eq_chainGo_d hw hpn, hdj,
    chainGo_succ_eq, if_pos hp]

/-- Specification of updatePositionsRecursively at a given fuel, when
called with the parent's chain transform: only positions change, bones
outside the subtree are untouched, and every bone of the subtree gets
its chain transform applied to the origin as its position. -/
def PosRecSpec (m0 : Skel) (d : Nat → Nat) (fuel : Nat) : Prop :=
  ∀ i u m, onlyPosDiff m0 m → i < m0.length → m0.length ≤ fuel + d i →
    hasP m0 i → u = chainT m0 (paN m0 i) →
    onlyPosDiff m0 (updatePositionsRecursively fuel m i u) ∧
    (∀ k, ¬ ReachB m0 i k → getB (updatePositionsRecursively fuel m i u) k = getB m k) ∧
    (∀ k, ReachB m0 i k →
      (getB (updatePositionsRecursively fuel m i u) k).position =
        vec3OfXyz ((chainT m0 k).mulVec origin4))

theorem updPosRec_succ (F : Nat) (m : Skel) (i : Nat) (u : Mat4) :
    updatePositionsRecursively (F + 1) m i u =
      ((getB m i).children).foldl
        (fun acc j => updatePositionsRecursively F acc j
          (u * ((getB m i).relativePos * (getB m i).localRot.toMat4)))
        (setB m i
          { getB m i with
            position :=
              vec3OfXyz
                ((u * ((getB m i).relativePos * (getB m i).localRot.toMat4)).mulVec
                  origin4) }) := rfl

theorem updPosFold {m0 : Skel} {d : Nat → Nat} (hw : WFData m0 d) (F : Nat)
    (hmain : PosRecSpec m0 d F) (i : Nat) (hi : i < m0.length)
    (hfuel : m0.length ≤ F + d i + 1) (U : Mat4) (hU : U = chainT m0 i) :
    ∀ cs : List Nat, (∀ c ∈ cs, c ∈ (getB m0 i).children) →
    ∀ m, onlyPosDiff m0 m →
      onlyPosDiff m0 (cs.foldl (fun acc j => updatePositionsRecursively F acc j U) m) ∧
      (∀ k, (∀ c ∈ cs, ¬ ReachB m0 c k) →
        getB (cs.foldl (fun acc j => updatePositionsRecursively F acc j U) m) k =
          getB m k) ∧
      (∀ c ∈ cs, ∀ k, ReachB m0 c k →
        (getB (cs.foldl (fun acc j => updatePositionsRecursively F acc j U) m)
          k).position = vec3OfXyz ((chainT m0 k).mulVec origin4)) := by
  intro cs
  induction cs with
  | nil =>
    intro _ m hm
    exact ⟨hm, fun k _ => rfl, by simp⟩
  | cons c cs ih =>
    intro hcs m hm
    have hc : c ∈ (getB m0 i).children := hcs c (List.mem_cons_self c cs)
    obtain ⟨hcn, hpc, hdc⟩ := hw.hA i hi c hc
    have hpac : paN m0 c = i := by unfold paN; rw [hpc]; simp
    have hhpc : hasP m0 c := by
      unfold hasP; rw [hpc]; intro hcon; simp only [Int.ofNat_eq_coe] at hcon; omega
    rw [List.foldl_cons]
    obtain ⟨h1, h2, h3⟩ :=
      hmain c U m hm hcn (by omega) hhpc (by rw [hU, hpac])
    obtain ⟨H1, H2, H3⟩ :=
      ih (fun c' hc' => hcs c' (List.mem_cons_of_mem _ hc'))
        (updatePositionsRecursively F m c U) h1
    refine ⟨H1, ?_, ?_⟩
    · intro k hk
      rw [H2 k (fun c' hc' => hk c' (List.mem_cons_of_mem _ hc')),
        h2 k (hk c (List.mem_cons_self c cs))]
    · intro c' hc' k hreach
      rcases List.mem_cons.mp hc' with rfl | hmem
      · by_cases hex : ∃ c'' ∈ cs, ReachB m0 c'' k
        · obtain ⟨c'', hc'', hr''⟩ := hex
          exact H3 c'' hc'' k hr''
        · push_neg at hex
          rw [H2 k hex]
          exact h3 k hreach
      · exact H3 c' hmem k hreach

theorem updPosRec_main {m0 : Skel} {d : Nat → Nat} (hw : WFData m0 d) :
    ∀ fuel, PosRecSpec m0 d fuel := by
  intro fuel
  induction fuel with
  | zero =>
    intro i u m hm hi hfuel
    exact absurd (hw.hD i hi) (by omega)
  | succ F ih =>
    intro i u m hm hi hfuel hhp hu
    rw [updPosRec_succ]
    have hch : (getB m i).children = (getB m0 i).children := onlyPosDiff_children hm i
    have hlr : (getB m i).localRot = (getB m0 i).localRot := onlyPosDiff_localRot hm i
    have hrel : (getB m i).relativePos = (getB m0 i).relativePos := onlyPosDiff_relativePos hm i
    have hchain : u * ((getB m i).relativePos * (getB m i).localRot.toMat4) =
        chainT m0 i := by
      rw [hlr, hrel, hu, (chainT_child hw hi hhp).symm]
    rw [hch, hchain]
    have hm1 : onlyPosDiff m0
        (setB m i
          { getB m i with position := vec3OfXyz ((chainT m0 i).mulVec origin4) }) :=
      onlyPosDiff_set hm i _
    obtain ⟨A1, A2, A3⟩ :=
      updPosFold hw F ih i hi (by omega) (chainT m0 i) rfl
        ((getB m0 i).children) (fun c hcm => hcm) _ hm1
    have hiun : ∀ c ∈ (getB m0 i).children, ¬ ReachB m0 c i :=
      fun c hcm => child_not_reach hw hi hcm
    refine ⟨A1, ?_, ?_⟩
    · intro k hk
      have hki : i ≠ k := fun h => hk (h ▸ ReachB.refl i)
      rw [A2 k (fun c hcm hr => hk (ReachB.step hcm hr)), getB_setB_ne _ hki]
    · intro k hreach
      cases hreach with
      | refl =>
        rw [A2 i hiun, getB_setB_self _ (by rw [hm.1]; exact hi)]
      | step hcmem hr =>
        rename_i c
        exact A3 c hcmem k hr

theorem updatePositions_def (m : Skel) :
    updatePositions m = (rootIndices m).foldl
      (fun acc r => ((getB acc r).children).foldl
        (fun acc2 j => updatePositionsRecursively m.length acc2 j
          ((getB acc r).relativePos * (getB acc r).localRot.toMat4))
        (setB acc r
          { getB acc r with
            position :=
              vec3OfXyz
                (((getB acc r).relativePos * (getB acc r).localRot.toMat4).mulVec
                  origin4) })) m := rfl

theorem updPosRootsFold {m0 : Skel} {d : Nat → Nat} (hw : WFData m0 d) :
    ∀ rs : List Nat, (∀ r ∈ rs, r ∈ rootIndices m0) →
    ∀ m, onlyPosDiff m0 m →
      onlyPosDiff m0 (rs.foldl
        (fun acc r => ((getB acc r).children).foldl
          (fun acc2 j => updatePositionsRecursively m0.length acc2 j
            ((getB acc r).relativePos * (getB acc r).localRot.toMat4))
          (setB acc r
            { getB acc r with
              position :=
                vec3OfXyz
                  (((getB acc r).relativePos * (getB acc r).localRot.toMat4).mulVec
                    origin4) })) m) ∧
      (∀ k, (∀ r ∈ rs, ¬ ReachB m0 r k) →
        getB (rs.foldl
          (fun acc r => ((getB acc r).children).foldl
            (fun acc2 j => updatePositionsRecursively m0.length acc2 j
              ((getB acc r).relativePos * (getB acc r).localRot.toMat4))
            (setB acc r
              { getB acc r with
                position :=
                  vec3OfXyz
                    (((getB acc r).relativePos * (getB acc r).localRot.toMat4).mulVec
                      origin4) })) m) k = getB m k) ∧
      (∀ r ∈ rs, ∀ k, ReachB m0 r k →
        (getB (rs.foldl
          (fun acc r => ((getB acc r).children).foldl
            (fun acc2 j => updatePositionsRecursively m0.length acc2 j
              ((getB acc r).relativePos * (getB acc r).localRot.toMat4))
            (setB acc r
              { getB acc r with
                position :=
                  vec3OfXyz
                    (((getB acc r).relativePos * (getB acc r).localRot.toMat4).mulVec
                      origin4) })) m) k).position =
          vec3OfXyz ((chainT m0 k).mulVec origin4)) := by
  intro rs
  induction rs with
  | nil =>
    intro _ m hm
    exact ⟨hm, fun k _ => rfl, by simp⟩
  | cons r rs ih =>
    intro hrs m hm
    have hr : r ∈ rootIndices m0 := hrs r (List.mem_cons_self r rs)
    obtain ⟨hrn, hrpar⟩ := mem_rootIndices.mp hr
    have hnp : ¬ hasP m0 r := by unfold hasP; rw [hrpar]; simp
    have hrd : d r = 0 := (hw.hC r hrn).mp hnp
    rw [List.foldl_cons]
    have hch : (getB m r).children = (getB m0 r).children := onlyPosDiff_children hm r
    have hlr : (getB m r).localRot = (getB m0 r).localRot := onlyPosDiff_localRot hm r
    have hrel : (getB m r).relativePos = (getB m0 r).relativePos := onlyPosDiff_relativePos hm r
    have hupd : (getB m r).relativePos * (getB m r).localRot.toMat4 = chainT m0 r := by
      rw [hlr, hrel, (chainT_root hw hrn hnp).symm]
    rw [hch, hupd]
    have hm1 : onlyPosDiff m0
        (setB m r
          { getB m r with position := vec3OfXyz ((chainT m0 r).mulVec origin4) }) :=
      onlyPosDiff_set hm r _
    obtain ⟨B1, B2, B3⟩ :=
      updPosFold hw m0.length (updPosRec_main hw m0.length) r hrn (by omega)
        (chainT m0 r) rfl ((getB m0 r).children) (fun c hc => hc) _ hm1
    have hrpos :
        (getB (((getB m0 r).children).foldl
          (fun acc j => updatePositionsRecursively m0.length acc j (chainT m0 r))
          (setB m r
            { getB m r with position := vec3OfXyz ((chainT m0 r).mulVec origin4) }))
          r).position = vec3OfXyz ((chainT m0 r).mulVec origin4) := by
      rw [B2 r (fun c hc => child_not_reach hw hrn hc),
        getB_setB_self _ (by rw [hm.1]; exact hrn)]
    obtain ⟨C1, C2, C3⟩ :=
      ih (fun r' hr' => hrs r' (List.mem_cons_of_mem _ hr')) _ B1
    refine ⟨C1, ?_, ?_⟩
    · intro k hk
      have hkr : ¬ ReachB m0 r k := hk r (List.mem_cons_self r rs)
      have hkrne : r ≠ k := fun h => hkr (h ▸ ReachB.refl r)
      rw [C2 k (fun r' hr' => hk r' (List.mem_cons_of_mem _ hr')),
        B2 k (fun c hc hrc => hkr (ReachB.step hc hrc)), getB_setB_ne _ hkrne]
    · intro r' hr' k hreach
      rcases List.mem_cons.mp hr' with rfl | hmem
      · by_cases hex : ∃ r'' ∈ rs, ReachB m0 r'' k
        · obtain ⟨r'', hr'', hrk⟩ := hex
          exact C3 r'' hr'' k hrk
        · push_neg at hex
          rw [C2 k hex]
          cases hreach with
          | refl => exact hrpos
          | step hcmem hrc =>
            rename_i c
            exact B3 c hcmem k hrc
      · exact C3 r' hmem k hreach

/-- C2: on every well-formed skeleton, updatePositions gives every bone
the position chainT(bone) applied to the homogeneous origin, where for a
root chainT = relativeOffset * rotationMatrix(localRot) and for a child
chainT = chainT(parent) * (relativeOffset * rotationMatrix(localRot));
and setRelativePos stores in relativePos exactly the translation-only
matrix by (rest joint position - parent's rest joint position), or by the
rest joint position itself for a root. -/
theorem updatePositions_spec (m : Skel) (hWF : WF m) :
    (∀ j, j < m.length →
      (getB (updatePositions m) j).position =
        vec3OfXyz ((chainT m j).mulVec origin4)) ∧
    (∀ r, r < m.length → ¬ hasP m r →
      chainT m r = (getB m r).relativePos * (getB m r).localRot.toMat4) ∧
    (∀ j, j < m.length → hasP m j →
      chainT m j = chainT m (paN m j) *
        ((getB m j).relativePos * (getB m j).localRot.toMat4)) ∧
    (∀ j, j < m.length →
      setRelativePos m j = { getB m j with relativePos := relOffset m j }) := by
  obtain ⟨d, hw⟩ := hWF
  refine ⟨?_, ?_, ?_, ?_⟩
  · rw [updatePositions_def]
    obtain ⟨D1, D2, D3⟩ :=
      updPosRootsFold hw (rootIndices m) (fun r hr => hr) m (onlyPosDiff_refl m)
    intro j hj
    obtain ⟨r, hrmem, hreach⟩ := rootReach hw (d j) j hj le_rfl
    exact D3 r hrmem j hreach
  · intro r hr hp
    exact chainT_root hw hr hp
  · intro j hj hp
    exact chainT_child hw hj hp
  · intro j _
    simp only [setRelativePos, relOffset, paN]
    by_cases hp : hasP m j
    · rw [if_pos (show (getB m j).parent ≠ -1 from hp), if_pos hp]
    · rw [if_neg (show ¬ (getB m j).parent ≠ -1 from hp), if_neg hp]

/-- Witness for C2: the hypothesis of updatePositions_spec holds for the
concrete two-bone chain, and the conclusion follows by applying it. -/
theorem updatePositions_spec_witness :
    WF wSkel ∧
    ((∀ j, j < wSkel.length →
      (getB (updatePositions wSkel) j).position =
        vec3OfXyz ((chainT wSkel j).mulVec origin4)) ∧
     (∀ r, r < wSkel.length → ¬ hasP wSkel r →
      chainT wSkel r = (getB wSkel r).relativePos * (getB wSkel r).localRot.toMat4) ∧
     (∀ j, j < wSkel.length → hasP wSkel j →
      chainT wSkel j = chainT wSkel (paN wSkel j) *
        ((getB wSkel j).relativePos * (getB wSkel j).localRot.toMat4)) ∧
     (∀ j, j < wSkel.length →
      setRelativePos wSkel j =
        { getB wSkel j with relativePos := relOffset wSkel j })) :=
  ⟨wSkel_WF, updatePositions_spec wSkel wSkel_WF⟩

/-! ## Field preservation: the update passes never touch the endpoint -/

theorem foldl_preserve_field {α : Type} (g : Bone → α) (f : Skel → Nat → Skel) :
    ∀ (l : List Nat) (m : Skel),
      (∀ acc j, j ∈ l → ∀ k, g (getB (f acc j) k) = g (getB acc k)) →
      ∀ k, g (getB (l.foldl f m) k) = g (getB m k) := by
  intro l
  induction l with
  | nil => intro m _ k; rfl
  | cons j l ih =>
    intro m hstep k
    rw [List.foldl_cons,
      ih (f m j) (fun acc j' hj' k' => hstep acc j' (List.mem_cons_of_mem _ hj') k'),
      hstep m j (List.mem_cons_self j l) k]

theorem setB_field {α : Type} (g : Bone → α) (m : Skel) (i : Nat) (b : Bone)
    (hb : g b = g (getB m i)) : ∀ k, g (getB (setB m i b) k) = g (getB m k) := by
  intro k
  rcases eq_or_ne i k with rfl | hne
  · rcases Nat.lt_or_ge i m.length with hi | hi
    · rw [getB_setB_self _ hi, hb]
    · rw [getB_setB_oob _ hi]
  · rw [getB_setB_ne _ hne]

theorem updRotRec_field {α : Type} (g : Bone → α)
    (hg : ∀ b r, g { b with rotation := r } = g b) :
    ∀ fuel m i u k, g (getB (updateRotationsRecursively fuel m i u) k) = g (getB m k) := by
  intro fuel
  induction fuel with
  | zero => intro m i u k; rfl
  | succ F ih =>
    intro m i u k
    rw [updRotRec_succ]
    rw [foldl_preserve_field g _ _ _ (fun acc j _ k' => ih acc j _ k') k]
    exact setB_field g m i _ (hg _ _) k

theorem updateRotations_field {α : Type} (g : Bone → α)
    (hg : ∀ b r, g { b with rotation := r } = g b) :
    ∀ m k, g (getB (updateRotations m) k) = g (getB m k) := by
  intro m k
  rw [updateRotations_def]
  refine foldl_preserve_field g _ _ _ (fun acc r _ k' => ?_) k
  rw [foldl_preserve_field g _ _ _ (fun acc2 j _ k'' => updRotRec_field g hg _ acc2 j _ k'') k']
  exact setB_field g acc r _ (hg _ _) k'

theorem updPosRec_field {α : Type} (g : Bone → α)
    (hg : ∀ b p, g { b with position := p } = g b) :
    ∀ fuel m i u k, g (getB (updatePositionsRecursively fuel m i u) k) = g (getB m k) := by
  intro fuel
  induction fuel with
  | zero => intro m i u k; rfl
  | succ F ih =>
    intro m i u k
    rw [updPosRec_succ]
    rw [foldl_preserve_field g _ _ _ (fun acc j _ k' => ih acc j _ k') k]
    exact setB_field g m i _ (hg _ _) k

theorem updatePositions_field {α : Type} (g : Bone → α)
    (hg : ∀ b p, g { b with position := p } = g b) :
    ∀ m k, g (getB (updatePositions m) k) = g (getB m k) := by
  intro m k
  rw [updatePositions_def]
  refine foldl_preserve_field g _ _ _ (fun acc r _ k' => ?_) k
  rw [foldl_preserve_field g _ _ _ (fun acc2 j _ k'' => updPosRec_field g hg _ acc2 j _ k'') k']
  exact setB_field g acc r _ (hg _ _) k'

/-- C4 (refuting the endpoint part of the claim): rotateBone never
touches any bone's endpoint.  Bone.rotate writes only localRot,
updateRotations writes only rotation fields, and updatePositions writes
only position fields, so after rotateBone every endpoint still carries
its construction-time value even though joint positions and world
rotations have been recomputed: the endpointPosition is left stale, not
recomputed. -/
theorem rotateBone_endpoint_stale (m : Skel) (bIdx : Nat) (u : Quat) (j : Nat) :
    (getB (rotateBone m bIdx u) j).endpoint = (getB m j).endpoint := by
  unfold rotateBone
  rw [updatePositions_field (fun b => b.endpoint) (fun _ _ => rfl) _ j,
    updateRotations_field (fun b => b.endpoint) (fun _ _ => rfl) _ j]
  exact setB_field (fun b => b.endpoint) m bIdx ((getB m bIdx).rotate u) rfl j

/-! ## Derived per-instance buffers (Float32Array model)

A Float32Array is modelled as its length plus a map from indices to real
values; out-of-range writes are silently dropped, as in JavaScript.
Float32 rounding is not modelled. -/

structure FArr where
  size : Nat
  data : Nat → ℝ

/-- new Float32Array(n): n zeroes. -/
def FArr.mk0 (n : Nat) : FArr := ⟨n, fun _ => 0⟩

/-- arr[i] = v (dropped when out of range, as in JavaScript). -/
def FArr.set (a : FArr) (i : Nat) (v : ℝ) : FArr :=
  if i < a.size then ⟨a.size, fun k => if k = i then v else a.data k⟩ else a

theorem FArr.set_size (a : FArr) (i : Nat) (v : ℝ) : (a.set i v).size = a.size := by
  unfold FArr.set
  split <;> rfl

theorem FArr.get_set (a : FArr) (i : Nat) (v : ℝ) (k : Nat) :
    (a.set i v).data k = if k = i ∧ i < a.size then v else a.data k := by
  unfold FArr.set
  split_ifs with h1 h2 h3 <;> simp_all

/-- The skeleton-owning Mesh state the claims are about: the bone array
and the optional highlighted bone (a JavaScript object reference,
modelled by the referenced bone's index; a stale reference is a value
outside the array range). -/
structure Mesh where
  bones : Skel
  highlightedBone : Option Nat

/-- Mesh.OFF_SCREEN (Scene.ts line 145). -/
def OFF_SCREEN : ℝ := 5000

/-- Mesh.DEFAULT_COLOR (Scene.ts line 143). -/
noncomputable def DEFAULT_COLOR : Fin 4 → ℝ := ![1, 0, 0, 1]

/-- Mesh.HIGHLIGHT_COLOR (Scene.ts line 144). -/
noncomputable def HIGHLIGHT_COLOR : Fin 4 → ℝ := ![0, 0, 0, 0]

/-- The world-rotated, normalized bone direction computed at
Scene.ts lines 253-255. -/
noncomputable def boneVecOf (b : Bone) : Vec3 :=
  (b.rotation.multiplyVec3 (Vec3.sub b.endpoint b.position)).normalize

/-- The fixed helper vector of Scene.ts line 257. -/
noncomputable def helperVec : Vec3 := ⟨0.61324, 0.1259812, 0.35284⟩

/-- dir1 after Gram-Schmidt orthogonalization and normalization
(Scene.ts lines 257-260). -/
noncomputable def gsDir1 (b : Bone) : Vec3 :=
  (Vec3.sub helperVec.normalize
    ((boneVecOf b).scale (Vec3.dot helperVec.normalize (boneVecOf b)))).normalize

/-- dir2 = normalized cross of dir1 with the bone direction
(Scene.ts lines 261-262). -/
noncomputable def gsDir2 (b : Bone) : Vec3 :=
  (Vec3.cross (gsDir1 b) (boneVecOf b)).normalize

/-- dir1 scaled by CYL_RADIUS (Scene.ts line 264). -/
noncomputable def handleDir1 (b : Bone) : Vec3 := (gsDir1 b).scale CYL_RADIUS

/-- dir2 scaled by CYL_RADIUS (Scene.ts line 265). -/
noncomputable def handleDir2 (b : Bone) : Vec3 := (gsDir2 b).scale CYL_RADIUS

/-- The body of the forEach loop of Mesh.getBoneTranslations
(Scene.ts lines 246-308) for one bone. -/
noncomputable def transStep (msh : Mesh) (numbones : Nat) (trans : FArr)
    (index : Nat) : FArr :=
  let bone := getB msh.bones index
  let t1 := ((trans.set (3 * index + 0) bone.position.x).set
    (3 * index + 1) bone.position.y).set (3 * index + 2) bone.position.z
  if msh.highlightedBone = some index then
    ((((((((((((t1.set (3 * numbones + 12 * index + 0)
      (bone.position.x + (handleDir1 bone).x)).set (3 * numbones + 12 * index + 1)
      (bone.position.y + (handleDir1 bone).y)).set (3 * numbones + 12 * index + 2)
      (bone.position.z + (handleDir1 bone).z)).set (3 * numbones + 12 * index + 3)
      (bone.position.x - (handleDir1 bone).x)).set (3 * numbones + 12 * index + 4)
      (bone.position.y - (handleDir1 bone).y)).set (3 * numbones + 12 * index + 5)
      (bone.position.z - (handleDir1 bone).z)).set (3 * numbones + 12 * index + 6)
      (bone.position.x + (handleDir2 bone).x)).set (3 * numbones + 12 * index + 7)
      (bone.position.y + (handleDir2 bone).y)).set (3 * numbones + 12 * index + 8)
      (bone.position.z + (handleDir2 bone).z)).set (3 * numbones + 12 * index + 9)
      (bone.position.x - (handleDir2 bone).x)).set (3 * numbones + 12 * index + 10)
      (bone.position.y - (handleDir2 bone).y)).set (3 * numbones + 12 * index + 11)
      (bone.position.z - (handleDir2 bone).z))
  else
    ((((((((((((t1.set (3 * numbones + 12 * index + 0) OFF_SCREEN).set
      (3 * numbones + 12 * index + 3) OFF_SCREEN).set
      (3 * numbones + 12 * index + 6) OFF_SCREEN).set
      (3 * numbones + 12 * index + 9) OFF_SCREEN).set
      (3 * numbones + 12 * index + 1) OFF_SCREEN).set
      (3 * numbones + 12 * index + 4) OFF_SCREEN).set
      (3 * numbones + 12 * index + 7) OFF_SCREEN).set
      (3 * numbones + 12 * index + 10) OFF_SCREEN).set
      (3 * numbones + 12 * index + 2) OFF_SCREEN).set
      (3 * numbones + 12 * index + 5) OFF_SCREEN).set
      (3 * numbones + 12 * index + 8) OFF_SCREEN).set
      (3 * numbones + 12 * index + 11) OFF_SCREEN)

/-- Mesh.getBoneTranslations (Scene.ts lines 243-340). -/
noncomputable def Mesh.getBoneTranslations (msh : Mesh) : FArr :=
  (List.range msh.bones.length).foldl (transStep msh msh.bones.length)
    (FArr.mk0 (3 * (msh.bones.length * 5)))

/-- The components res[0..3] = xyzw of a quaternion. -/
def quatComp (q : Quat) : Nat → ℝ := fun i =>
  if i = 0 then q.x else if i = 1 then q.y else if i = 2 then q.z else q.w

/-- The body of the forEach loop of Mesh.getBoneRotations
(Scene.ts lines 345-355) for one bone. -/
noncomputable def rotStep (msh : Mesh) (numbones : Nat) (trans : FArr)
    (index : Nat) : FArr :=
  let res := quatComp (getB msh.bones index).rotation
  (List.range 4).foldl (fun t i =>
    ((((t.set (4 * index + i) (res i)).set
      (4 * numbones + 16 * index + 0 + i) (res i)).set
      (4 * numbones + 16 * index + 4 + i) (res i)).set
      (4 * numbones + 16 * index + 8 + i) (res i)).set
      (4 * numbones + 16 * index + 12 + i) (res i)) trans

/-- Mesh.getBoneRotations (Scene.ts lines 342-367). -/
noncomputable def Mesh.getBoneRotations (msh : Mesh) : FArr :=
  (List.range msh.bones.length).foldl (rotStep msh msh.bones.length)
    (FArr.mk0 (4 * (msh.bones.length * 5)))

/-- The body of the forEach loop of Mesh.getBoneHighlights
(Scene.ts lines 373-383) for one bone. -/
noncomputable def highStep (msh : Mesh) (highlights : FArr) (index : Nat) : FArr :=
  let color := if msh.highlightedBone = some index then HIGHLIGHT_COLOR else DEFAULT_COLOR
  (((highlights.set (4 * index + 0) (color 0)).set (4 * index + 1) (color 1)).set
    (4 * index + 2) (color 2)).set (4 * index + 3) (color 3)

/-- Mesh.getBoneHighlights (Scene.ts lines 370-386). -/
noncomputable def Mesh.getBoneHighlights (msh : Mesh) : FArr :=
  (List.range msh.bones.length).foldl (highStep msh)
    (FArr.mk0 (4 * (msh.bones.length * 5)))

/-- The scan loop of Mesh.highlightedBoneIndex (Scene.ts lines 396-400),
iterating i upward while fuel counts the remaining iterations; the
identity comparison bones[i] == highlightedBone is index equality. -/
def hbiGo : Nat → Nat → Nat → Int
  | 0, _, _ => -1
  | Nat.succ f, i, r => if i = r then Int.ofNat i else hbiGo f (i + 1) r

/-- Mesh.highlightedBoneIndex (Scene.ts lines 389-403). -/
def Mesh.highlightedBoneIndex (msh : Mesh) : Int :=
  match msh.highlightedBone with
  | none => -1
  | some r => hbiGo msh.bones.length 0 r

theorem foldl_size_preserved (step : FArr → Nat → FArr)
    (h : ∀ a j, (step a j).size = a.size) :
    ∀ (l : List Nat) (a : FArr), (l.foldl step a).size = a.size := by
  intro l
  induction l with
  | nil => intro a; rfl
  | cons j l ih => intro a; rw [List.foldl_cons, ih, h]

theorem transStep_size (msh : Mesh) (n : Nat) (a : FArr) (i : Nat) :
    (transStep msh n a i).size = a.size := by
  unfold transStep
  dsimp only
  split <;> simp only [FArr.set_size]

theorem rotStep_size (msh : Mesh) (n : Nat) (a : FArr) (i : Nat) :
    (rotStep msh n a i).size = a.size := by
  unfold rotStep
  dsimp only
  exact foldl_size_preserved _ (fun a' j => by simp only [FArr.set_size]) _ a

theorem highStep_size (msh : Mesh) (a : FArr) (i : Nat) :
    (highStep msh a i).size = a.size := by
  unfold highStep
  dsimp only
  simp only [FArr.set_size]

/-- C8: the three derived buffers agree on five slots per bone:
translations have length 3 * (5 * n), rotations and highlights
4 * (5 * n). -/
theorem buffer_sizes_agree (msh : Mesh) :
    msh.getBoneTranslations.size = 3 * (5 * msh.bones.length) ∧
    msh.getBoneRotations.size = 4 * (5 * msh.bones.length) ∧
    msh.getBoneHighlights.size = 4 * (5 * msh.bones.length) := by
  refine ⟨?_, ?_, ?_⟩
  · unfold Mesh.getBoneTranslations
    rw [foldl_size_preserved _ (fun a j => transStep_size msh _ a j)]
    show 3 * (msh.bones.length * 5) = _
    ring
  · unfold Mesh.getBoneRotations
    rw [foldl_size_preserved _ (fun a j => rotStep_size msh _ a j)]
    show 4 * (msh.bones.length * 5) = _
    ring
  · unfold Mesh.getBoneHighlights
    rw [foldl_size_preserved _ (fun a j => highStep_size msh a j)]
    show 4 * (msh.bones.length * 5) = _
    ring

/-! ## highlightedBoneIndex -/

theorem hbiGo_found : ∀ f i r, i ≤ r → r < i + f → hbiGo f i r = Int.ofNat r := by
  intro f
  induction f with
  | zero => intro i r h1 h2; omega
  | succ f ih =>
    intro i r h1 h2
    by_cases hir : i = r
    · unfold hbiGo
      rw [if_pos hir, hir]
    · unfold hbiGo
      rw [if_neg hir]
      exact ih (i + 1) r (by omega) (by omega)

theorem hbiGo_miss : ∀ f i r, i + f ≤ r → hbiGo f i r = -1 := by
  intro f
  induction f with
  | zero => intro i r _; rfl
  | succ f ih =>
    intro i r h
    unfold hbiGo
    rw [if_neg (by omega)]
    exact ih (i + 1) r (by omega)

/-- C9: highlightedBoneIndex is total (never raises): it returns the
sentinel -1 when no bone is highlighted or when the highlighted
reference identity-matches no entry of the bone array (the reference is
stale, i.e. outside the array), and otherwise the linear scan returns
the index of the (unique, hence first) bone that identity-matches the
highlighted reference. -/
theorem highlightedBoneIndex_spec (msh : Mesh) :
    (msh.highlightedBone = none → msh.highlightedBoneIndex = -1) ∧
    (∀ r, msh.highlightedBone = some r →
      (r < msh.bones.length → msh.highlightedBoneIndex = Int.ofNat r) ∧
      (msh.bones.length ≤ r → msh.highlightedBoneIndex = -1)) := by
  constructor
  · intro h
    unfold Mesh.highlightedBoneIndex
    rw [h]
  · intro r h
    constructor
    · intro hr
      unfold Mesh.highlightedBoneIndex
      rw [h]
      exact hbiGo_found msh.bones.length 0 r (Nat.zero_le r) (by omega)
    · intro hr
      unfold Mesh.highlightedBoneIndex
      rw [h]
      exact hbiGo_miss msh.bones.length 0 r (by omega)

/-- Concrete mesh with the child bone highlighted, used as witness. -/
def wMeshH : Mesh := ⟨wSkel, some 1⟩

/-- Witness for C9: applying highlightedBoneIndex_spec to a concrete
mesh whose highlighted reference is bone 1 of two. -/
theorem highlightedBoneIndex_spec_witness :
    wMeshH.highlightedBone = some 1 ∧ 1 < wMeshH.bones.length ∧
      wMeshH.highlightedBoneIndex = Int.ofNat 1 :=
  ⟨rfl, by decide,
    ((highlightedBoneIndex_spec wMeshH).2 1 rfl).1 (by decide)⟩

/-! ## Reading the translation buffer back -/

theorem foldl_data_frame (step : FArr → Nat → FArr) (k : Nat) :
    ∀ (l : List Nat) (a : FArr),
      (∀ a' j, j ∈ l → (step a' j).data k = a'.data k) →
      (l.foldl step a).data k = a.data k := by
  intro l
  induction l with
  | nil => intro a _; rfl
  | cons j l ih =>
    intro a hframe
    rw [List.foldl_cons,
      ih (step a j) (fun a' j' hj' => hframe a' j' (List.mem_cons_of_mem _ hj')),
      hframe a j (List.mem_cons_self j l)]

theorem foldl_data_value (step : FArr → Nat → FArr) (k i S : Nat) (V : ℝ)
    (hsize : ∀ a j, (step a j).size = a.size)
    (hval : ∀ a : FArr, a.size = S → (step a i).data k = V) :
    ∀ (l : List Nat) (a : FArr), a.size = S → i ∈ l → l.Nodup →
      (∀ a' j, j ∈ l → j ≠ i → (step a' j).data k = a'.data k) →
      (l.foldl step a).data k = V := by
  intro l
  induction l with
  | nil => intro a _ hi; exact absurd hi (List.not_mem_nil i)
  | cons j l ih =>
    intro a hS hi hnd hframe
    rw [List.foldl_cons]
    rcases List.mem_cons.mp hi with rfl | hmem
    · have hinotin : i ∉ l := (List.nodup_cons.mp hnd).1
      rw [foldl_data_frame step k l (step a i)
        (fun a' j' hj' => hframe a' j' (List.mem_cons_of_mem _ hj')
          (fun hji => hinotin (hji ▸ hj')))]
      exact hval a hS
    · exact ih (step a j) (by rw [hsize a j, hS]) hmem (List.nodup_cons.mp hnd).2
        (fun a' j' hj' hne => hframe a' j' (List.mem_cons_of_mem _ hj') hne)

/-- A sequence of writes into a Float32Array, performed left to right. -/
def FArr.setSeq (a : FArr) (l : List (Nat × ℝ)) : FArr :=
  l.foldl (fun acc p => acc.set p.1 p.2) a

theorem FArr.setSeq_size : ∀ (l : List (Nat × ℝ)) (a : FArr),
    (FArr.setSeq a l).size = a.size := by
  intro l
  induction l with
  | nil => intro a; rfl
  | cons p l ih =>
    intro a
    show (FArr.setSeq (a.set p.1 p.2) l).size = a.size
    rw [ih, FArr.set_size]

theorem FArr.setSeq_data_notin : ∀ (l : List (Nat × ℝ)) (a : FArr) (k : Nat),
    k ∉ l.map Prod.fst → (FArr.setSeq a l).data k = a.data k := by
  intro l
  induction l with
  | nil => intro a k _; rfl
  | cons p l ih =>
    intro a k hk
    show (FArr.setSeq (a.set p.1 p.2) l).data k = a.data k
    rw [ih (a.set p.1 p.2) k
      (fun h => hk (by rw [List.map_cons]; exact List.mem_cons_of_mem _ h)),
      FArr.get_set, if_neg]
    exact fun hc => hk (by rw [List.map_cons, hc.1]; exact List.mem_cons_self _ _)

theorem FArr.setSeq_data_unique : ∀ (l : List (Nat × ℝ)) (a : FArr) (k : Nat) (v : ℝ),
    k < a.size → (k, v) ∈ l → (l.map Prod.fst).Nodup →
    (FArr.setSeq a l).data k = v := by
  intro l
  induction l with
  | nil => intro a k v _ hm _; exact absurd hm (List.not_mem_nil _)
  | cons p l ih =>
    intro a k v hk hm hnd
    simp only [List.map_cons, List.nodup_cons] at hnd
    show (FArr.setSeq (a.set p.1 p.2) l).data k = v
    rcases List.mem_cons.mp hm with heq | hmem
    · have hp1 : p.1 = k := by rw [← heq]
      have hnotin : k ∉ l.map Prod.fst := hp1 ▸ hnd.1
      rw [FArr.setSeq_data_notin l _ k hnotin, ← heq, FArr.get_set,
        if_pos ⟨rfl, hk⟩]
    · exact ih (a.set p.1 p.2) k v (by rw [FArr.set_size]; exact hk) hmem hnd.2

/-- The value the widget-handle slot c of the highlighted bone receives:
the bone's joint position offset by plus/minus the scaled dir1 / dir2
axes. -/
noncomputable def handleVal (b : Bone) : Nat → ℝ := fun c =>
  if c = 0 then b.position.x + (handleDir1 b).x
  else if c = 1 then b.position.y + (handleDir1 b).y
  else if c = 2 then b.position.z + (handleDir1 b).z
  else if c = 3 then b.position.x - (handleDir1 b).x
  else if c = 4 then b.position.y - (handleDir1 b).y
  else if c = 5 then b.position.z - (handleDir1 b).z
  else if c = 6 then b.position.x + (handleDir2 b).x
  else if c = 7 then b.position.y + (handleDir2 b).y
  else if c = 8 then b.position.z + (handleDir2 b).z
  else if c = 9 then b.position.x - (handleDir2 b).x
  else if c = 10 then b.position.y - (handleDir2 b).y
  else b.position.z - (handleDir2 b).z

theorem transStep_highlight_eq (msh : Mesh) (n : Nat) (a : FArr) (i : Nat)
    (hh : msh.highlightedBone = some i) :
    transStep msh n a i = FArr.setSeq a
      [(3 * i + 0, (getB msh.bones i).position.x),
       (3 * i + 1, (getB msh.bones i).position.y),
       (3 * i + 2, (getB msh.bones i).position.z),
       (3 * n + 12 * i + 0,
         (getB msh.bones i).position.x + (handleDir1 (getB msh.bones i)).x),
       (3 * n + 12 * i + 1,
         (getB msh.bones i).position.y + (handleDir1 (getB msh.bones i)).y),
       (3 * n + 12 * i + 2,
         (getB msh.bones i).position.z + (handleDir1 (getB msh.bones i)).z),
       (3 * n + 12 * i + 3,
         (getB msh.bones i).position.x - (handleDir1 (getB msh.bones i)).x),
       (3 * n + 12 * i + 4,
         (getB msh.bones i).position.y - (handleDir1 (getB msh.bones i)).y),
       (3 * n + 12 * i + 5,
         (getB msh.bones i).position.z - (handleDir1 (getB msh.bones i)).z),
       (3 * n + 12 * i + 6,
         (getB msh.bones i).position.x + (handleDir2 (getB msh.bones i)).x),
       (3 * n + 12 * i + 7,
         (getB msh.bones i).position.y + (handleDir2 (getB msh.bones i)).y),
       (3 * n + 12 * i + 8,
         (getB msh.bones i).position.z + (handleDir2 (getB msh.bones i)).z),
       (3 * n + 12 * i + 9,
         (getB msh.bones i).position.x - (handleDir2 (getB msh.bones i)).x),
       (3 * n + 12 * i + 10,
         (getB msh.bones i).position.y - (handleDir2 (getB msh.bones i)).y),
       (3 * n + 12 * i + 11,
         (getB msh.bones i).position.z - (handleDir2 (getB msh.bones i)).z)] := by
  unfold transStep
  dsimp only
  rw [if_pos hh]
  simp only [FArr.setSeq, List.foldl_cons, List.foldl_nil]

theorem transStep_else_eq (msh : Mesh) (n : Nat) (a : FArr) (i : Nat)
    (hh : ¬ msh.highlightedBone = some i) :
    transStep msh n a i = FArr.setSeq a
      [(3 * i + 0, (getB msh.bones i).position.x),
       (3 * i + 1, (getB msh.bones i).position.y),
       (3 * i + 2, (getB msh.bones i).position.z),
       (3 * n + 12 * i + 0, OFF_SCREEN),
       (3 * n + 12 * i + 3, OFF_SCREEN),
       (3 * n + 12 * i + 6, OFF_SCREEN),
       (3 * n + 12 * i + 9, OFF_SCREEN),
       (3 * n + 12 * i + 1, OFF_SCREEN),
       (3 * n + 12 * i + 4, OFF_SCREEN),
       (3 * n + 12 * i + 7, OFF_SCREEN),
       (3 * n + 12 * i + 10, OFF_SCREEN),
       (3 * n + 12 * i + 2, OFF_SCREEN),
       (3 * n + 12 * i + 5, OFF_SCREEN),
       (3 * n + 12 * i + 8, OFF_SCREEN),
       (3 * n + 12 * i + 11, OFF_SCREEN)] := by
  unfold transStep
  dsimp only
  rw [if_neg hh]
  simp only [FArr.setSeq, List.foldl_cons, List.foldl_nil]

theorem transStep_frame (msh : Mesh) (n : Nat) (a : FArr) (j k : Nat)
    (h1 : ¬ (3 * j ≤ k ∧ k < 3 * j + 3))
    (h2 : ¬ (3 * n + 12 * j ≤ k ∧ k < 3 * n + 12 * j + 12)) :
    (transStep msh n a j).data k = a.data k := by
  by_cases hh : msh.highlightedBone = some j
  · rw [transStep_highlight_eq msh n a j hh]
    apply FArr.setSeq_data_notin
    simp only [List.map_cons, List.map_nil, List.mem_cons, List.not_mem_nil, or_false]
    omega
  · rw [transStep_else_eq msh n a j hh]
    apply FArr.setSeq_data_notin
    simp only [List.map_cons, List.map_nil, List.mem_cons, List.not_mem_nil, or_false]
    omega

theorem transStep_highlight_val (msh : Mesh) (n : Nat) (a : FArr) (i c : Nat)
    (hn : i < n) (hc : c < 12) (hS : a.size = 3 * (n * 5))
    (hh : msh.highlightedBone = some i) :
    (transStep msh n a i).data (3 * n + 12 * i + c) =
      handleVal (getB msh.bones i) c := by
  rw [transStep_highlight_eq msh n a i hh]
  have hk : ∀ c' : Nat, c' < 12 → 3 * n + 12 * i + c' < a.size := by
    intro c' hc'
    rw [hS]
    omega
  interval_cases c <;>
    exact FArr.setSeq_data_unique _ a _ _ (hk _ (by omega)) (by norm_num [handleVal])
      (by simp only [List.map_cons, List.map_nil, List.nodup_cons, List.mem_cons,
            List.not_mem_nil, or_false, List.nodup_nil, and_true, not_or,
            not_false_eq_true]
          omega)

theorem transStep_offscreen_val (msh : Mesh) (n : Nat) (a : FArr) (i c : Nat)
    (hn : i < n) (hc : c < 12) (hS : a.size = 3 * (n * 5))
    (hh : ¬ msh.highlightedBone = some i) :
    (transStep msh n a i).data (3 * n + 12 * i + c) = OFF_SCREEN := by
  rw [transStep_else_eq msh n a i hh]
  have hk : ∀ c' : Nat, c' < 12 → 3 * n + 12 * i + c' < a.size := by
    intro c' hc'
    rw [hS]
    omega
  interval_cases c <;>
    exact FArr.setSeq_data_unique _ a _ _ (hk _ (by omega)) (by norm_num)
      (by simp only [List.map_cons, List.map_nil, List.nodup_cons, List.mem_cons,
            List.not_mem_nil, or_false, List.nodup_nil, and_true, not_or,
            not_false_eq_true]
          omega)

theorem trans_data_offscreen (msh : Mesh) (i c : Nat) (hi : i < msh.bones.length)
    (hc : c < 12) (hh : ¬ msh.highlightedBone = some i) :
    msh.getBoneTranslations.data (3 * msh.bones.length + 12 * i + c) = OFF_SCREEN := by
  unfold Mesh.getBoneTranslations
  exact foldl_data_value (transStep msh msh.bones.length)
    (3 * msh.bones.length + 12 * i + c) i (3 * (msh.bones.length * 5)) OFF_SCREEN
    (fun a j => transStep_size msh msh.bones.length a j)
    (fun a hS => transStep_offscreen_val msh msh.bones.length a i c hi hc hS hh)
    (List.range msh.bones.length) (FArr.mk0 _) rfl (List.mem_range.mpr hi)
    (List.nodup_range _)
    (fun a' j hj hne => transStep_frame msh msh.bones.length a' j _
      (by have := List.mem_range.mp hj; omega)
      (by have := List.mem_range.mp hj; omega))

theorem trans_data_highlight (msh : Mesh) (h c : Nat) (hi : h < msh.bones.length)
    (hc : c < 12) (hh : msh.highlightedBone = some h) :
    msh.getBoneTranslations.data (3 * msh.bones.length + 12 * h + c) =
      handleVal (getB msh.bones h) c := by
  unfold Mesh.getBoneTranslations
  exact foldl_data_value (transStep msh msh.bones.length)
    (3 * msh.bones.length + 12 * h + c) h (3 * (msh.bones.length * 5))
    (handleVal (getB msh.bones h) c)
    (fun a j => transStep_size msh msh.bones.length a j)
    (fun a hS => transStep_highlight_val msh msh.bones.length a h c hi hc hS hh)
    (List.range msh.bones.length) (FArr.mk0 _) rfl (List.mem_range.mpr hi)
    (List.nodup_range _)
    (fun a' j hj hne => transStep_frame msh msh.bones.length a' j _
      (by have := List.mem_range.mp hj; omega)
      (by have := List.mem_range.mp hj; omega))

/-! ## Orthogonality of the handle axes -/

theorem Vec3.dot_self_nonneg (v : Vec3) : 0 ≤ Vec3.dot v v := by
  unfold Vec3.dot
  nlinarith [mul_self_nonneg v.x, mul_self_nonneg v.y, mul_self_nonneg v.z]

theorem Vec3.dot_self_pos (v : Vec3) (h : v ≠ ⟨0, 0, 0⟩) : 0 < Vec3.dot v v := by
  rcases v with ⟨x, y, z⟩
  have hne : ¬ (x = 0 ∧ y = 0 ∧ z = 0) := by
    intro hc
    exact h (by rw [hc.1, hc.2.1, hc.2.2])
  unfold Vec3.dot
  dsimp only
  rcases not_and_or.mp hne with hx | hyz
  · nlinarith [mul_self_nonneg y, mul_self_nonneg z, mul_self_pos.mpr hx]
  · rcases not_and_or.mp hyz with hy | hz
    · nlinarith [mul_self_nonneg x, mul_self_nonneg z, mul_self_pos.mpr hy]
    · nlinarith [mul_self_nonneg x, mul_self_nonneg y, mul_self_pos.mpr hz]

theorem Vec3.length_pos (v : Vec3) (h : v ≠ ⟨0, 0, 0⟩) : 0 < Vec3.length v :=
  Real.sqrt_pos.mpr (Vec3.dot_self_pos v h)

theorem Vec3.length_sq (v : Vec3) :
    Vec3.length v * Vec3.length v = Vec3.dot v v :=
  Real.mul_self_sqrt (Vec3.dot_self_nonneg v)

theorem Vec3.dot_normalize_left (v w : Vec3) :
    Vec3.dot v.normalize w = Vec3.dot v w / Vec3.length v := by
  unfold Vec3.normalize Vec3.dot
  dsimp only
  ring

theorem Vec3.dot_normalize_self (v : Vec3) (h : v ≠ ⟨0, 0, 0⟩) :
    Vec3.dot v.normalize v.normalize = 1 := by
  have hL : Vec3.length v ≠ 0 := ne_of_gt (Vec3.length_pos v h)
  have hsq := Vec3.length_sq v
  unfold Vec3.normalize Vec3.dot
  dsimp only
  unfold Vec3.dot at hsq
  field_simp
  linarith [hsq]

theorem Vec3.dot_scale_left (v w : Vec3) (s : ℝ) :
    Vec3.dot (v.scale s) w = s * Vec3.dot v w := by
  unfold Vec3.dot Vec3.scale
  dsimp only
  ring

theorem gsDir1_perp (b : Bone)
    (h : b.rotation.multiplyVec3 (Vec3.sub b.endpoint b.position) ≠ ⟨0, 0, 0⟩) :
    Vec3.dot (gsDir1 b) (boneVecOf b) = 0 := by
  have hbv : Vec3.dot (boneVecOf b) (boneVecOf b) = 1 :=
    Vec3.dot_normalize_self _ h
  unfold gsDir1
  rw [Vec3.dot_normalize_left]
  have hexp : Vec3.dot (Vec3.sub helperVec.normalize
      ((boneVecOf b).scale (Vec3.dot helperVec.normalize (boneVecOf b))))
      (boneVecOf b) =
      Vec3.dot helperVec.normalize (boneVecOf b) -
        Vec3.dot helperVec.normalize (boneVecOf b) *
          Vec3.dot (boneVecOf b) (boneVecOf b) := by
    unfold Vec3.dot Vec3.sub Vec3.scale
    dsimp only
    ring
  rw [hexp, hbv, mul_one, sub_self, zero_div]

theorem gsDir2_perp (b : Bone) : Vec3.dot (gsDir2 b) (boneVecOf b) = 0 := by
  unfold gsDir2
  rw [Vec3.dot_normalize_left]
  have hc : Vec3.dot (Vec3.cross (gsDir1 b) (boneVecOf b)) (boneVecOf b) = 0 := by
    unfold Vec3.dot Vec3.cross
    dsimp only
    ring
  rw [hc, zero_div]

theorem handleDir1_perp (b : Bone)
    (h : b.rotation.multiplyVec3 (Vec3.sub b.endpoint b.position) ≠ ⟨0, 0, 0⟩) :
    Vec3.dot (handleDir1 b) (boneVecOf b) = 0 := by
  unfold handleDir1
  rw [Vec3.dot_scale_left, gsDir1_perp b h, mul_zero]

theorem handleDir2_perp (b : Bone) :
    Vec3.dot (handleDir2 b) (boneVecOf b) = 0 := by
  unfold handleDir2
  rw [Vec3.dot_scale_left, gsDir2_perp b, mul_zero]

/-- C7 (amended: the four widget-handle points are offset from the
highlighted bone's JOINT position, bone.position, not from its midpoint):
when a bone is highlighted, its twelve appended handle components are the
joint position offset by plus/minus dir1 and dir2 (handleVal), where dir1
is a fixed helper vector Gram-Schmidt-orthogonalized against the
world-rotated bone direction and dir2 its cross with that direction, both
scaled by CYL_RADIUS and both perpendicular to the bone direction; when
no bone is highlighted every handle slot holds the single large
off-screen constant 5000. -/
theorem getBoneTranslations_handles_spec (msh : Mesh) :
    (msh.highlightedBone = none →
      ∀ i, i < msh.bones.length → ∀ c, c < 12 →
        msh.getBoneTranslations.data (3 * msh.bones.length + 12 * i + c) =
          OFF_SCREEN) ∧
    (∀ h, msh.highlightedBone = some h → h < msh.bones.length → ∀ c, c < 12 →
      msh.getBoneTranslations.data (3 * msh.bones.length + 12 * h + c) =
        handleVal (getB msh.bones h) c) ∧
    (∀ b : Bone,
      b.rotation.multiplyVec3 (Vec3.sub b.endpoint b.position) ≠ ⟨0, 0, 0⟩ →
      Vec3.dot (handleDir1 b) (boneVecOf b) = 0 ∧
      Vec3.dot (handleDir2 b) (boneVecOf b) = 0) := by
  refine ⟨?_, ?_, ?_⟩
  · intro hnone i hi c hc
    refine trans_data_offscreen msh i c hi hc ?_
    rw [hnone]
    simp
  · intro h hh hi c hc
    exact trans_data_highlight msh h c hi hc hh
  · intro b hb
    exact ⟨handleDir1_perp b hb, handleDir2_perp b⟩

theorem wBone1_dir_ne :
    (getB wMeshH.bones 1).rotation.multiplyVec3
      (Vec3.sub (getB wMeshH.bones 1).endpoint (getB wMeshH.bones 1).position) ≠
      (⟨0, 0, 0⟩ : Vec3) := by
  intro hc
  have hz := congrArg Vec3.z hc
  simp only [wMeshH, wSkel, wBone1, getB, Quat.multiplyVec3, Vec3.cross, Vec3.scale,
    Vec3.add, Vec3.sub] at hz
  norm_num at hz

/-- Witness for C7: applying getBoneTranslations_handles_spec to the
concrete two-bone mesh with bone 1 highlighted. -/
theorem getBoneTranslations_handles_spec_witness :
    (wMeshH.highlightedBone = some 1 ∧ 1 < wMeshH.bones.length ∧ (0 : Nat) < 12 ∧
      (getB wMeshH.bones 1).rotation.multiplyVec3
        (Vec3.sub (getB wMeshH.bones 1).endpoint (getB wMeshH.bones 1).position) ≠
        (⟨0, 0, 0⟩ : Vec3)) ∧
    wMeshH.getBoneTranslations.data (3 * wMeshH.bones.length + 12 * 1 + 0) =
      handleVal (getB wMeshH.bones 1) 0 ∧
    Vec3.dot (handleDir1 (getB wMeshH.bones 1)) (boneVecOf (getB wMeshH.bones 1)) = 0 :=
  ⟨⟨rfl, by decide, by decide, wBone1_dir_ne⟩,
   (getBoneTranslations_handles_spec wMeshH).2.1 1 rfl (by decide) 0 (by decide),
   ((getBoneTranslations_handles_spec wMeshH).2.2 _ wBone1_dir_ne).1⟩

/-- A single-bone mesh with its bone highlighted, joint (0,0,0) and
endpoint (0,0,1): the counterexample input for C7. -/
def cBone : Bone :=
  { parent := -1, children := [], position := ⟨0, 0, 0⟩, endpoint := ⟨0, 0, 1⟩,
    rotation := ⟨0, 0, 0, 1⟩, initialPosition := ⟨0, 0, 0⟩,
    initialEndpoint := ⟨0, 0, 1⟩, localRot := ⟨0, 0, 0, 1⟩,
    relativePos := transMat ⟨0, 0, 0⟩ }

/-- The counterexample mesh for C7. -/
def cMesh : Mesh := ⟨[cBone], some 0⟩

/-- C7 counterexample: in the buffer for cMesh the z components of the
first pair of handle points (slots 5 and 8) sum to twice the JOINT's z
coordinate (0), not to twice the midpoint's z coordinate (which is 1/2,
since the endpoint is (0,0,1)): the claim that the handles are offset
symmetrically from the bone's midpoint forces that sum to be twice the
midpoint's z, which is false here. -/
theorem getBoneTranslations_midpoint_counterexample :
    cMesh.getBoneTranslations.data 5 + cMesh.getBoneTranslations.data 8 =
      2 * (getB cMesh.bones 0).position.z ∧
    2 * (((getB cMesh.bones 0).position.z + (getB cMesh.bones 0).endpoint.z) / 2) ≠
      2 * (getB cMesh.bones 0).position.z := by
  have h2 := trans_data_highlight cMesh 0 2 (by decide) (by decide) rfl
  have h5 := trans_data_highlight cMesh 0 5 (by decide) (by decide) rfl
  have hlen : cMesh.bones.length = 1 := rfl
  rw [hlen] at h2 h5
  norm_num at h2 h5
  constructor
  · rw [h2, h5]
    norm_num [handleVal]
    ring
  · have hp : (getB cMesh.bones 0).position.z = 0 := rfl
    have he : (getB cMesh.bones 0).endpoint.z = 1 := rfl
    rw [hp, he]
    norm_num

/-! ## The intersect routine as a decision over geometric conditions -/

/-- The closest point of the line through A with direction a to the line
through B with direction b, by the standard skew-line formula. -/
noncomputable def closestPointOnLine1ToLine2 (A a B b : Vec3) : Vec3 :=
  Vec3.add A (a.scale
    (Vec3.dot (Vec3.sub B A) (Vec3.cross b (Vec3.cross a b)) /
      Vec3.dot (Vec3.cross a b) (Vec3.cross a b)))

/-- The squared distance from point P to the line through B with
direction u (the squared norm of the projection residual). -/
noncomputable def ptLineDistSq (P B u : Vec3) : ℝ :=
  Vec3.dot (Vec3.sub P B) (Vec3.sub P B) -
    (Vec3.dot (Vec3.sub P B) u) ^ 2 / Vec3.dot u u

/-- The skew-line closest-approach distance between the query ray and the
bone's axis line, by the spec's formula: the absolute dot product of the
point difference with the normalized cross product. -/
noncomputable def skewDist (b : Bone) (pos dir : Vec3) : ℝ :=
  |Vec3.dot (Vec3.sub b.position pos) (Vec3.cross dir (boneVecOf b)).normalize|

/-- The point on the bone's axis line closest to the query ray (the q2 of
Scene.ts lines 96-100). -/
noncomputable def axisClosest (b : Bone) (pos dir : Vec3) : Vec3 :=
  closestPointOnLine1ToLine2 b.position (boneVecOf b) pos dir

/-- The segment rejection of Scene.ts lines 103-107: the closest axis
point is farther from one of the two endpoints than the segment length. -/
noncomputable def outsideSeg (b : Bone) (pos dir : Vec3) : Prop :=
  dist3 b.endpoint (axisClosest b pos dir) > dist3 b.endpoint b.position ∨
  dist3 b.position (axisClosest b pos dir) > dist3 b.endpoint b.position

/-- The behind-ray rejection of Scene.ts lines 117-120: the closest axis
point is farther from the origin nudged by RAY_EPSILON along the ray than
from the raw origin. -/
noncomputable def behindRay (b : Bone) (pos dir : Vec3) : Prop :=
  dist3 (axisClosest b pos dir) (Vec3.add pos (dir.scale RAY_EPSILON)) >
    dist3 (axisClosest b pos dir) pos

noncomputable instance (b : Bone) (pos dir : Vec3) : Decidable (outsideSeg b pos dir) := by
  unfold outsideSeg
  infer_instance

noncomputable instance (b : Bone) (pos dir : Vec3) : Decidable (behindRay b pos dir) := by
  unfold behindRay
  infer_instance

theorem dist3_comm (a b : Vec3) : dist3 a b = dist3 b a := by
  unfold dist3 Vec3.length Vec3.sub Vec3.dot
  dsimp only
  congr 1
  ring

theorem Vec3.length_nonneg (v : Vec3) : 0 ≤ v.length := Real.sqrt_nonneg _

/-- The code's q2 (and its identically computed q1) is exactly the
closest point on the bone's axis line to the ray. -/
theorem q2_eq (b : Bone) (pos dir : Vec3) :
    Vec3.add b.position ((boneVecOf b).scale
      (Vec3.dot (Vec3.sub b.position pos)
          (Vec3.cross dir (Vec3.cross dir (boneVecOf b))) /
        Vec3.dot (Vec3.cross dir (boneVecOf b)) (Vec3.cross dir (boneVecOf b)))) =
    axisClosest b pos dir := by
  unfold axisClosest closestPointOnLine1ToLine2
  have hnum : Vec3.dot (Vec3.sub pos b.position)
      (Vec3.cross dir (Vec3.cross (boneVecOf b) dir)) =
      Vec3.dot (Vec3.sub b.position pos)
        (Vec3.cross dir (Vec3.cross dir (boneVecOf b))) := by
    unfold Vec3.dot Vec3.cross Vec3.sub
    dsimp only
    ring
  have hden : Vec3.dot (Vec3.cross (boneVecOf b) dir) (Vec3.cross (boneVecOf b) dir) =
      Vec3.dot (Vec3.cross dir (boneVecOf b)) (Vec3.cross dir (boneVecOf b)) := by
    unfold Vec3.dot Vec3.cross
    dsimp only
    ring
  rw [hnum, hden]

/-- Bone.intersect expressed as the decision sequence over the
spec-level conditions. -/
theorem intersect_eq (b : Bone) (pos dir : Vec3) :
    b.intersect pos dir =
      if skewDist b pos dir > CYL_RADIUS then -1
      else if outsideSeg b pos dir then -1
      else if behindRay b pos dir then -1
      else dist3 pos (axisClosest b pos dir) := by
  unfold Bone.intersect
  dsimp only
  rw [show ((b.rotation.multiplyVec3 (Vec3.sub b.endpoint b.position))).normalize =
    boneVecOf b from rfl]
  rw [q2_eq b pos dir]
  unfold skewDist outsideSeg behindRay dist3
  have habs : |(Vec3.sub (axisClosest b pos dir) pos).length| =
      (Vec3.sub pos (axisClosest b pos dir)).length := by
    rw [abs_of_nonneg (Vec3.length_nonneg _)]
    exact dist3_comm (axisClosest b pos dir) pos
  rw [habs]

/-! ## The closest-point characterizations -/

theorem Vec3.ext_zero {v : Vec3} (hx : v.x = 0) (hy : v.y = 0) (hz : v.z = 0) :
    v = ⟨0, 0, 0⟩ := by
  rcases v with ⟨x, y, z⟩
  dsimp only at hx hy hz
  rw [hx, hy, hz]

theorem Vec3.cross_swap_zero {a b : Vec3} (h : Vec3.cross a b = ⟨0, 0, 0⟩) :
    Vec3.cross b a = ⟨0, 0, 0⟩ := by
  have hx := congrArg Vec3.x h
  have hy := congrArg Vec3.y h
  have hz := congrArg Vec3.z h
  unfold Vec3.cross at hx hy hz
  dsimp only at hx hy hz
  refine Vec3.ext_zero ?_ ?_ ?_ <;> unfold Vec3.cross <;> dsimp only
  · have e : b.y * a.z - b.z * a.y = -(a.y * b.z - a.z * b.y) := by ring
    rw [e, hx, neg_zero]
  · have e : b.z * a.x - b.x * a.z = -(a.z * b.x - a.x * b.z) := by ring
    rw [e, hy, neg_zero]
  · have e : b.x * a.y - b.y * a.x = -(a.x * b.y - a.y * b.x) := by ring
    rw [e, hz, neg_zero]

theorem Vec3.right_ne_zero_of_cross {a b : Vec3}
    (h : Vec3.cross a b ≠ ⟨0, 0, 0⟩) : b ≠ ⟨0, 0, 0⟩ := by
  intro hb
  apply h
  rw [hb]
  unfold Vec3.cross
  dsimp only
  exact Vec3.ext_zero (by dsimp only; ring) (by dsimp only; ring) (by dsimp only; ring)

theorem quadratic_min (N L C : ℝ) (hN : 0 < N) (s : ℝ) :
    (-L / N) ^ 2 * N + 2 * (-L / N) * L + C ≤ s ^ 2 * N + 2 * s * L + C := by
  have hNne : N ≠ 0 := ne_of_gt hN
  have key : s ^ 2 * N + 2 * s * L + C -
      ((-L / N) ^ 2 * N + 2 * (-L / N) * L + C) = N * (s + L / N) ^ 2 := by
    field_simp
    ring
  nlinarith [sq_nonneg (s + L / N), hN]

/-- The point closestPointOnLine1ToLine2 really is closest: among all
points of the first line it minimizes the squared distance to the second
line. -/
theorem closestPoint_min (A a B bb : Vec3) (hn : Vec3.cross a bb ≠ ⟨0, 0, 0⟩)
    (s : ℝ) :
    ptLineDistSq (closestPointOnLine1ToLine2 A a B bb) B bb ≤
      ptLineDistSq (Vec3.add A (a.scale s)) B bb := by
  have hbne : bb ≠ ⟨0, 0, 0⟩ := Vec3.right_ne_zero_of_cross hn
  have hbpos : 0 < Vec3.dot bb bb := Vec3.dot_self_pos bb hbne
  have hbb : Vec3.dot bb bb ≠ 0 := ne_of_gt hbpos
  have hNpos : 0 < Vec3.dot (Vec3.cross a bb) (Vec3.cross a bb) :=
    Vec3.dot_self_pos _ hn
  have hN : Vec3.dot (Vec3.cross a bb) (Vec3.cross a bb) ≠ 0 := ne_of_gt hNpos
  set N := Vec3.dot (Vec3.cross a bb) (Vec3.cross a bb) with hNdef
  set L := Vec3.dot (Vec3.sub A B) (Vec3.cross bb (Vec3.cross a bb)) with hLdef
  set C := Vec3.dot (Vec3.sub A B) (Vec3.sub A B) * Vec3.dot bb bb -
    (Vec3.dot (Vec3.sub A B) bb) ^ 2 with hCdef
  have key1 : ∀ t : ℝ, ptLineDistSq (Vec3.add A (a.scale t)) B bb *
      Vec3.dot bb bb = t ^ 2 * N + 2 * t * L + C := by
    intro t
    rw [hNdef, hLdef, hCdef]
    have hbb2 : bb.x * bb.x + bb.y * bb.y + bb.z * bb.z ≠ 0 := by
      unfold Vec3.dot at hbb
      exact hbb
    unfold ptLineDistSq Vec3.dot Vec3.cross Vec3.sub Vec3.add Vec3.scale
    dsimp only
    field_simp
    ring
  have hsstar : Vec3.dot (Vec3.sub B A) (Vec3.cross bb (Vec3.cross a bb)) / N =
      -L / N := by
    rw [hLdef]
    have e : Vec3.dot (Vec3.sub B A) (Vec3.cross bb (Vec3.cross a bb)) =
        -(Vec3.dot (Vec3.sub A B) (Vec3.cross bb (Vec3.cross a bb))) := by
      unfold Vec3.dot Vec3.cross Vec3.sub
      dsimp only
      ring
    rw [e]
  have hclosest : closestPointOnLine1ToLine2 A a B bb =
      Vec3.add A (a.scale (-L / N)) := by
    unfold closestPointOnLine1ToLine2
    rw [← hNdef, hsstar]
  rw [hclosest]
  have h1 := key1 (-L / N)
  have h2 := key1 s
  have hq := quadratic_min N L C hNpos s
  nlinarith [hbpos]

/-- Cauchy-Schwarz for the 3-component dot product, via the Lagrange
identity. -/
theorem Vec3.cs (v n : Vec3) :
    (Vec3.dot v n) ^ 2 ≤ Vec3.dot v v * Vec3.dot n n := by
  unfold Vec3.dot
  nlinarith [sq_nonneg (v.y * n.z - v.z * n.y), sq_nonneg (v.z * n.x - v.x * n.z),
    sq_nonneg (v.x * n.y - v.y * n.x)]

theorem Vec3.dot_normalize_right (v w : Vec3) :
    Vec3.dot v w.normalize = Vec3.dot v w / Vec3.length w := by
  unfold Vec3.normalize Vec3.dot
  dsimp only
  ring

/-- The code's distance value is a lower bound for the distance between
any point of the ray's line and any point of the bone's axis line: it is
the skew-line closest-approach distance. -/
theorem skewDist_le (b : Bone) (pos dir : Vec3)
    (hc : Vec3.cross dir (boneVecOf b) ≠ ⟨0, 0, 0⟩) (s t : ℝ) :
    skewDist b pos dir ≤
      dist3 (Vec3.add pos (dir.scale s))
        (Vec3.add b.position ((boneVecOf b).scale t)) := by
  have hLpos : 0 < Vec3.length (Vec3.cross dir (boneVecOf b)) :=
    Vec3.length_pos _ hc
  have h1 : skewDist b pos dir =
      |Vec3.dot (Vec3.sub b.position pos) (Vec3.cross dir (boneVecOf b))| /
        Vec3.length (Vec3.cross dir (boneVecOf b)) := by
    unfold skewDist
    rw [Vec3.dot_normalize_right, abs_div,
      abs_of_nonneg (Vec3.length_nonneg (Vec3.cross dir (boneVecOf b)))]
  have h2 : Vec3.dot (Vec3.sub (Vec3.add pos (dir.scale s))
      (Vec3.add b.position ((boneVecOf b).scale t)))
      (Vec3.cross dir (boneVecOf b)) =
      -(Vec3.dot (Vec3.sub b.position pos) (Vec3.cross dir (boneVecOf b))) := by
    unfold Vec3.dot Vec3.cross Vec3.sub Vec3.add Vec3.scale
    dsimp only
    ring
  show skewDist b pos dir ≤
    (Vec3.sub (Vec3.add pos (dir.scale s))
      (Vec3.add b.position ((boneVecOf b).scale t))).length
  rw [h1, div_le_iff₀ hLpos]
  calc |Vec3.dot (Vec3.sub b.position pos) (Vec3.cross dir (boneVecOf b))|
      = Real.sqrt ((Vec3.dot (Vec3.sub b.position pos)
          (Vec3.cross dir (boneVecOf b))) ^ 2) := (Real.sqrt_sq_eq_abs _).symm
    _ = Real.sqrt ((Vec3.dot (Vec3.sub (Vec3.add pos (dir.scale s))
          (Vec3.add b.position ((boneVecOf b).scale t)))
          (Vec3.cross dir (boneVecOf b))) ^ 2) := by rw [h2]; congr 1; ring
    _ ≤ Real.sqrt (Vec3.dot (Vec3.sub (Vec3.add pos (dir.scale s))
          (Vec3.add b.position ((boneVecOf b).scale t)))
          (Vec3.sub (Vec3.add pos (dir.scale s))
            (Vec3.add b.position ((boneVecOf b).scale t))) *
          Vec3.dot (Vec3.cross dir (boneVecOf b)) (Vec3.cross dir (boneVecOf b))) :=
        Real.sqrt_le_sqrt (Vec3.cs _ _)
    _ = (Vec3.sub (Vec3.add pos (dir.scale s))
          (Vec3.add b.position ((boneVecOf b).scale t))).length *
          Vec3.length (Vec3.cross dir (boneVecOf b)) := by
        rw [Real.sqrt_mul (Vec3.dot_self_nonneg _)]
        rfl

/-- C3 (amended: the hit point is the closest point on the BONE AXIS
line to the ray, not the point on the ray closest to the axis): for a
ray not parallel to the bone axis, intersect returns the sentinel exactly
when the skew-line closest-approach distance exceeds CYL_RADIUS, or the
closest axis point fails the joint-endpoint segment test, or that point
lies behind the ray origin (RAY_EPSILON tie-break); otherwise it returns
the distance from the ray origin to the closest axis point.  The last
two conjuncts justify the geometric readings: the axis point minimizes
the squared distance to the ray line among all axis points, and the
radius test value is a lower bound on the distance between any ray point
and any axis point. -/
theorem intersect_sentinel_spec (b : Bone) (pos dir : Vec3)
    (hc : Vec3.cross dir (boneVecOf b) ≠ ⟨0, 0, 0⟩) :
    (b.intersect pos dir = -1 ↔
      skewDist b pos dir > CYL_RADIUS ∨ outsideSeg b pos dir ∨
        behindRay b pos dir) ∧
    (¬ (skewDist b pos dir > CYL_RADIUS ∨ outsideSeg b pos dir ∨
        behindRay b pos dir) →
      b.intersect pos dir = dist3 pos (axisClosest b pos dir)) ∧
    (∀ t : ℝ, ptLineDistSq (axisClosest b pos dir) pos dir ≤
      ptLineDistSq (Vec3.add b.position ((boneVecOf b).scale t)) pos dir) ∧
    (∀ s t : ℝ, skewDist b pos dir ≤
      dist3 (Vec3.add pos (dir.scale s))
        (Vec3.add b.position ((boneVecOf b).scale t))) := by
  refine ⟨?_, ?_, ?_, fun s t => skewDist_le b pos dir hc s t⟩
  · rw [intersect_eq]
    by_cases h1 : skewDist b pos dir > CYL_RADIUS
    · rw [if_pos h1]
      exact ⟨fun _ => Or.inl h1, fun _ => rfl⟩
    · rw [if_neg h1]
      by_cases h2 : outsideSeg b pos dir
      · rw [if_pos h2]
        exact ⟨fun _ => Or.inr (Or.inl h2), fun _ => rfl⟩
      · rw [if_neg h2]
        by_cases h3 : behindRay b pos dir
        · rw [if_pos h3]
          exact ⟨fun _ => Or.inr (Or.inr h3), fun _ => rfl⟩
        · rw [if_neg h3]
          constructor
          · intro hd
            have h0 : (0:ℝ) ≤ dist3 pos (axisClosest b pos dir) :=
              Vec3.length_nonneg _
            rw [hd] at h0
            linarith
          · intro hor
            rcases hor with h | h | h
            · exact absurd h h1
            · exact absurd h h2
            · exact absurd h h3
  · intro hnot
    obtain ⟨h1, h23⟩ := not_or.mp hnot
    obtain ⟨h2, h3⟩ := not_or.mp h23
    rw [intersect_eq, if_neg h1, if_neg h2, if_neg h3]
  · intro t
    have hsw : Vec3.cross (boneVecOf b) dir ≠ ⟨0, 0, 0⟩ :=
      fun h => hc (Vec3.cross_swap_zero h)
    exact closestPoint_min b.position (boneVecOf b) pos dir hsw t

theorem cBone_boneVec : boneVecOf cBone = ⟨0, 0, 1⟩ := by
  unfold boneVecOf cBone Quat.multiplyVec3 Vec3.normalize Vec3.length Vec3.dot
    Vec3.cross Vec3.scale Vec3.add Vec3.sub
  dsimp only
  norm_num [Vec3.mk.injEq, Real.sqrt_one]

theorem cBone_cross_ne :
    Vec3.cross ⟨-1, 0, 0⟩ (boneVecOf cBone) ≠ (⟨0, 0, 0⟩ : Vec3) := by
  rw [cBone_boneVec]
  intro h
  have hy := congrArg Vec3.y h
  unfold Vec3.cross at hy
  dsimp only at hy
  norm_num at hy

/-- Witness for C3: the non-parallelism hypothesis holds for the concrete
bone and ray, and the sentinel characterization follows by applying the
theorem. -/
theorem intersect_sentinel_spec_witness :
    Vec3.cross ⟨-1, 0, 0⟩ (boneVecOf cBone) ≠ (⟨0, 0, 0⟩ : Vec3) ∧
    (cBone.intersect ⟨2/25, 0, 1/2⟩ ⟨-1, 0, 0⟩ = -1 ↔
      skewDist cBone ⟨2/25, 0, 1/2⟩ ⟨-1, 0, 0⟩ > CYL_RADIUS ∨
      outsideSeg cBone ⟨2/25, 0, 1/2⟩ ⟨-1, 0, 0⟩ ∨
      behindRay cBone ⟨2/25, 0, 1/2⟩ ⟨-1, 0, 0⟩) :=
  ⟨cBone_cross_ne,
   (intersect_sentinel_spec cBone ⟨2/25, 0, 1/2⟩ ⟨-1, 0, 0⟩ cBone_cross_ne).1⟩

/-- For the concrete bone (axis z from (0,0,0) to (0,0,1)) and any ray
direction along the x axis, the closest axis point to the ray keeps the
ray origin's z coordinate. -/
theorem cBone_axisClosest (dx x0 y0 z0 : ℝ) (hdx : dx ≠ 0) :
    axisClosest cBone ⟨x0, y0, z0⟩ ⟨dx, 0, 0⟩ = ⟨0, 0, z0⟩ := by
  unfold axisClosest closestPointOnLine1ToLine2
  rw [cBone_boneVec, show cBone.position = (⟨0, 0, 0⟩ : Vec3) from rfl]
  unfold Vec3.add Vec3.scale Vec3.dot Vec3.cross Vec3.sub
  dsimp only
  simp only [Vec3.mk.injEq]
  refine ⟨by ring, by ring, ?_⟩
  field_simp

theorem cBone_skewDist (x0 y0 z0 : ℝ) :
    skewDist cBone ⟨x0, y0, z0⟩ ⟨-1, 0, 0⟩ = |y0| := by
  unfold skewDist Vec3.normalize Vec3.length
  rw [cBone_boneVec, show cBone.position = (⟨0, 0, 0⟩ : Vec3) from rfl]
  unfold Vec3.dot Vec3.cross Vec3.sub
  dsimp only
  norm_num [Real.sqrt_one, abs_neg]

theorem cBone_not_outsideSeg (x0 y0 : ℝ) :
    ¬ outsideSeg cBone ⟨x0, y0, 1/2⟩ ⟨-1, 0, 0⟩ := by
  unfold outsideSeg
  rw [cBone_axisClosest (-1) x0 y0 (1/2) (by norm_num), not_or]
  constructor
  · rw [not_lt]
    unfold dist3 Vec3.length Vec3.sub Vec3.dot
    rw [show cBone.endpoint = (⟨0, 0, 1⟩ : Vec3) from rfl,
        show cBone.position = (⟨0, 0, 0⟩ : Vec3) from rfl]
    dsimp only
    apply Real.sqrt_le_sqrt
    norm_num
  · rw [not_lt]
    unfold dist3 Vec3.length Vec3.sub Vec3.dot
    rw [show cBone.endpoint = (⟨0, 0, 1⟩ : Vec3) from rfl,
        show cBone.position = (⟨0, 0, 0⟩ : Vec3) from rfl]
    dsimp only
    apply Real.sqrt_le_sqrt
    norm_num

theorem cBone_not_behindRay (x0 y0 : ℝ) (hx : 1/20000 ≤ x0) :
    ¬ behindRay cBone ⟨x0, y0, 1/2⟩ ⟨-1, 0, 0⟩ := by
  unfold behindRay RAY_EPSILON
  rw [cBone_axisClosest (-1) x0 y0 (1/2) (by norm_num), not_lt]
  unfold dist3 Vec3.length Vec3.sub Vec3.add Vec3.scale Vec3.dot
  dsimp only
  apply Real.sqrt_le_sqrt
  nlinarith [hx]

/-- Evaluation of intersect for the concrete bone and a horizontal ray
aimed at the axis midheight: when the ray origin is within the radius in
|y| and at least RAY_EPSILON/2 in front in x, the result is the distance
from the ray origin to the axis point (0,0,1/2). -/
theorem intersect_eval_horiz (x0 y0 : ℝ) (hy : |y0| ≤ 7/100)
    (hx : 1/20000 ≤ x0) :
    cBone.intersect ⟨x0, y0, 1/2⟩ ⟨-1, 0, 0⟩ = Real.sqrt (x0 ^ 2 + y0 ^ 2) := by
  have hskew : ¬ (skewDist cBone ⟨x0, y0, 1/2⟩ ⟨-1, 0, 0⟩ > CYL_RADIUS) := by
    have hr : CYL_RADIUS = 7/100 := rfl
    rw [cBone_skewDist, hr, not_lt]
    exact hy
  have houts := cBone_not_outsideSeg x0 y0
  have hbeh := cBone_not_behindRay x0 y0 hx
  rw [intersect_eq, if_neg hskew, if_neg houts, if_neg hbeh]
  rw [cBone_axisClosest (-1) x0 y0 (1/2) (by norm_num)]
  unfold dist3 Vec3.length Vec3.sub Vec3.dot
  dsimp only
  congr 1
  ring

/-- C3 counterexample: at the concrete bone, ray origin (0.05, 0.03, 0.5)
and direction (-1,0,0), the code's return value (the distance to the
closest AXIS point) differs from the distance to the point on the RAY
closest to the axis, which is what the claim asserts is returned: the
code returns sqrt(0.0034) while the claimed value is 0.05. -/
theorem intersect_hitpoint_counterexample :
    cBone.intersect ⟨1/20, 3/100, 1/2⟩ ⟨-1, 0, 0⟩ ≠
      dist3 ⟨1/20, 3/100, 1/2⟩
        (closestPointOnLine1ToLine2 ⟨1/20, 3/100, 1/2⟩ ⟨-1, 0, 0⟩
          cBone.position (boneVecOf cBone)) := by
  rw [intersect_eval_horiz (1/20) (3/100)
    (by rw [show |(3:ℝ)/100| = 3/100 from abs_of_pos (by norm_num)]; norm_num)
    (by norm_num)]
  have hR : dist3 ⟨1/20, 3/100, 1/2⟩
      (closestPointOnLine1ToLine2 ⟨1/20, 3/100, 1/2⟩ ⟨-1, 0, 0⟩
        cBone.position (boneVecOf cBone)) = Real.sqrt (1/400) := by
    rw [cBone_boneVec, show cBone.position = (⟨0, 0, 0⟩ : Vec3) from rfl]
    unfold closestPointOnLine1ToLine2 dist3 Vec3.length Vec3.add Vec3.scale
      Vec3.sub Vec3.cross Vec3.dot
    dsimp only
    congr 1
    norm_num
  rw [hR]
  intro h
  have h2 := (Real.sqrt_inj (by norm_num) (by norm_num)).mp h
  norm_num at h2

/-- C5 (amended): at the concrete bone with r = CYL_RADIUS = 0.07, the
ray from (r+0.01, 0, 0.5) along (-1,0,0) hits at distance 0.08 (the
distance from the ray origin to the closest axis point), the ray from
(r+0.02, 0, 0.5) along (-1,0,0) also hits, at distance 0.09 rather than
missing, and the ray from (0,0,0.5) along (1,0,0) returns the no-hit
sentinel by the behind-ray rejection. -/
theorem intersect_boundary_cases_amended :
    cBone.intersect ⟨2/25, 0, 1/2⟩ ⟨-1, 0, 0⟩ = 2/25 ∧
    cBone.intersect ⟨9/100, 0, 1/2⟩ ⟨-1, 0, 0⟩ = 9/100 ∧
    cBone.intersect ⟨0, 0, 1/2⟩ ⟨1, 0, 0⟩ = -1 := by
  refine ⟨?_, ?_, ?_⟩
  · rw [intersect_eval_horiz (2/25) 0 (by norm_num) (by norm_num)]
    rw [show (2/25 : ℝ) ^ 2 + 0 ^ 2 = (2/25) ^ 2 by ring]
    exact Real.sqrt_sq (by norm_num)
  · rw [intersect_eval_horiz (9/100) 0 (by norm_num) (by norm_num)]
    rw [show (9/100 : ℝ) ^ 2 + 0 ^ 2 = (9/100) ^ 2 by ring]
    exact Real.sqrt_sq (by norm_num)
  · have h1 : ¬ (skewDist cBone ⟨0, 0, 1/2⟩ ⟨1, 0, 0⟩ > CYL_RADIUS) := by
      unfold skewDist CYL_RADIUS Vec3.normalize Vec3.length
      rw [cBone_boneVec, show cBone.position = (⟨0, 0, 0⟩ : Vec3) from rfl]
      unfold Vec3.dot Vec3.cross Vec3.sub
      dsimp only
      norm_num
    have hax : axisClosest cBone ⟨0, 0, 1/2⟩ ⟨1, 0, 0⟩ = ⟨0, 0, 1/2⟩ :=
      cBone_axisClosest 1 0 0 (1/2) (by norm_num)
    have h2 : ¬ outsideSeg cBone ⟨0, 0, 1/2⟩ ⟨1, 0, 0⟩ := by
      unfold outsideSeg
      rw [hax, not_or]
      constructor
      · rw [not_lt]
        unfold dist3 Vec3.length Vec3.sub Vec3.dot
        rw [show cBone.endpoint = (⟨0, 0, 1⟩ : Vec3) from rfl,
            show cBone.position = (⟨0, 0, 0⟩ : Vec3) from rfl]
        dsimp only
        apply Real.sqrt_le_sqrt
        norm_num
      · rw [not_lt]
        unfold dist3 Vec3.length Vec3.sub Vec3.dot
        rw [show cBone.endpoint = (⟨0, 0, 1⟩ : Vec3) from rfl,
            show cBone.position = (⟨0, 0, 0⟩ : Vec3) from rfl]
        dsimp only
        apply Real.sqrt_le_sqrt
        norm_num
    have h3 : behindRay cBone ⟨0, 0, 1/2⟩ ⟨1, 0, 0⟩ := by
      unfold behindRay RAY_EPSILON
      rw [hax]
      unfold dist3 Vec3.length Vec3.sub Vec3.add Vec3.scale Vec3.dot
      dsimp only
      exact Real.sqrt_lt_sqrt (by norm_num) (by norm_num)
    rw [intersect_eq, if_neg h1, if_neg h2, if_pos h3]

/-- C5 counterexample: the first boundary ray returns 0.08, which is not
within 0.01 of the claimed approximate value 0.01, and the second
boundary ray returns 0.09 rather than the claimed no-hit sentinel. -/
theorem intersect_boundary_counterexample :
    cBone.intersect ⟨2/25, 0, 1/2⟩ ⟨-1, 0, 0⟩ = 2/25 ∧
    ¬ |(2/25 : ℝ) - 1/100| ≤ 1/100 ∧
    cBone.intersect ⟨9/100, 0, 1/2⟩ ⟨-1, 0, 0⟩ = 9/100 ∧
    (9/100 : ℝ) ≠ -1 := by
  refine ⟨?_, by rw [not_le]; rw [abs_of_pos (by norm_num)]; norm_num, ?_,
    by norm_num⟩
  · rw [intersect_eval_horiz (2/25) 0 (by norm_num) (by norm_num)]
    rw [show (2/25 : ℝ) ^ 2 + 0 ^ 2 = (2/25) ^ 2 by ring]
    exact Real.sqrt_sq (by norm_num)
  · rw [intersect_eval_horiz (9/100) 0 (by norm_num) (by norm_num)]
    rw [show (9/100 : ℝ) ^ 2 + 0 ^ 2 = (9/100) ^ 2 by ring]
    exact Real.sqrt_sq (by norm_num)
